import Mathlib

/-!
Verification of the `parse` PEG library (Go) against its natural-language
specification.

The definitions below are a shallow embedding of the library's source:

* byte-level helpers `strAt`, `SkipSpaces`, `SkipOneLineComment`,
  `SkipMultilineComment`, `SkipTeXComment` (append.go);
* the integer literal scanners `checkUintOverflow`, `parseUint64`,
  `parseInt64` (parsers.go);
* the Go string / escape scanners `parseUnicodeValue`, `parseString`
  (parsers.go);
* the compiled-parser graph (`PNode`, `PField`), the parse values (`GoVal`)
  and the parse engine `run` mirroring `parseContext.parse` (append.go)
  together with each `ParseValue` method (parsers.go);
* a reference engine `refRun` that performs the same recursive descent
  without the packrat table, flagging left recursion through an explicit
  ancestor stack (used to state packrat-invariance claims);
* the iterative left-recursion seed-growing loop `lrGrow` (append.go,
  the `for` loop of `parseContext.parse`).

Go machine integers are modelled as `Nat`/`Int` with explicit wrapping
(`mod64`, `wrap32`) where the Go code can overflow.  Input strings are
`List Nat` (byte values).  Go's mutable `*Error` out-parameter is threaded
explicitly: every function takes the incoming error record and returns the
updated one.  Functions whose Go originals can recurse unboundedly take a
fuel argument; exhausting it is reported as a distinct outcome.
-/

/-- A byte string, as Go `[]byte`. -/
abbrev ByteStr := List Nat

/-- Convenience: byte string of an ASCII Lean string. -/
def bytes (s : String) : ByteStr := s.data.map Char.toNat

/-- Go parse error record (`Error` in parse.go) restricted to the fields the
engine reads: the location and the message.  The `Str` field always aliases
the input and is omitted. -/
structure PError where
  loc : Int
  msg : String
deriving Repr, DecidableEq

/-- `strAt` from append.go: test whether literal `s` occurs in `str` at
offset `loc` (byte-wise comparison, with the bounds check first). -/
def strAtAux : ByteStr → Nat → ByteStr → Bool
  | _, _, [] => true
  | str, loc, c :: rest => (str.getD loc 0 = c) && strAtAux str (loc + 1) rest

/-- Bounds-checked literal match, as `strAt` in append.go. -/
def strAt (str : ByteStr) (loc : Nat) (s : ByteStr) : Bool :=
  (loc + s.length ≤ str.length) && strAtAux str loc s

/-- Wrap to 64-bit unsigned range, for Go `uint64` arithmetic. -/
def mod64 (x : Nat) : Nat := x % (2 ^ 64)

/-- Wrap to Go `rune` (= `int32`) range, two's complement. -/
def wrap32 (x : Int) : Int := (x + 2 ^ 31) % 2 ^ 32 - 2 ^ 31

/-- `parseContext.checkUintOverflow` from parsers.go: true when value `v`
does not fit in `size` bits (sizes of 64 bits and more never overflow). -/
def checkUintOverflow (v : Nat) (size : Nat) : Bool :=
  if size ≥ 64 then false
  else (v >>> size) ≠ 0

/-- Shared epilogue of the three accumulation loops in
`parseContext.parseUint64`: apply `checkUintOverflow` and either fail or
return the accumulated value at the current location. -/
def finishUint (size : Nat) (err : PError) (loc : Nat) (res : Nat) :
    Nat × Int × PError :=
  if checkUintOverflow res size then (0, -1, ⟨loc, "Integer overflow"⟩)
  else (res, (loc : Int), err)

/-- Hexadecimal accumulation loop of `parseContext.parseUint64`
(parsers.go).  The sentinel mask `0xf000000000000000` is tested before
each digit, exactly as in the source.  `cnt` is a structural countdown:
the loop advances by one byte per step, so with `cnt = str.length` the
countdown can only run out at the end of the input, where it returns the
same `finishUint` epilogue the loop exit does. -/
def hexLoop (str : ByteStr) (size : Nat) (err : PError) :
    Nat → Nat → Nat → Nat × Int × PError
  | 0, loc, res => finishUint size err loc res
  | cnt + 1, loc, res =>
    if loc < str.length then
      if res &&& 0xf000000000000000 ≠ 0 then (0, -1, ⟨loc, "Integer overflow"⟩)
      else
        let c := str.getD loc 0
        if 48 ≤ c ∧ c ≤ 57 then
          hexLoop str size err cnt (loc + 1) (mod64 ((res <<< 4) + (c - 48)))
        else if 97 ≤ c ∧ c ≤ 102 then
          hexLoop str size err cnt (loc + 1) (mod64 ((res <<< 4) + (c - 97) + 10))
        else if 65 ≤ c ∧ c ≤ 70 then
          hexLoop str size err cnt (loc + 1) (mod64 ((res <<< 4) + (c - 65) + 10))
        else finishUint size err loc res
    else finishUint size err loc res

/-- Octal accumulation loop of `parseContext.parseUint64` (parsers.go),
with the sentinel mask `0xe000000000000000` and the same countdown
convention as `hexLoop`. -/
def octLoop (str : ByteStr) (size : Nat) (err : PError) :
    Nat → Nat → Nat → Nat × Int × PError
  | 0, loc, res => finishUint size err loc res
  | cnt + 1, loc, res =>
    if loc < str.length then
      if res &&& 0xe000000000000000 ≠ 0 then (0, -1, ⟨loc, "Integer overflow"⟩)
      else
        let c := str.getD loc 0
        if 48 ≤ c ∧ c ≤ 55 then
          octLoop str size err cnt (loc + 1) (mod64 ((res <<< 3) + (c - 48)))
        else finishUint size err loc res
    else finishUint size err loc res

/-- Decimal accumulation loop of `parseContext.parseUint64` (parsers.go),
with the same countdown convention as `hexLoop`.  Besides the sentinel
pre-check it detects wrap-around of `res*8 + res*2` and, in that branch,
returns the current location as the new offset (`return 0, location` in
the source) rather than `-1`. -/
def decLoop (str : ByteStr) (size : Nat) (err : PError) :
    Nat → Nat → Nat → Nat × Int × PError
  | 0, loc, res => finishUint size err loc res
  | cnt + 1, loc, res =>
    if loc < str.length then
      if res &&& 0xe000000000000000 ≠ 0 then (0, -1, ⟨loc, "Integer overflow"⟩)
      else
        let c := str.getD loc 0
        if 48 ≤ c ∧ c ≤ 57 then
          let r8 := mod64 (res <<< 3)
          let r := mod64 (r8 + mod64 (res <<< 1))
          if r < r8 then (0, (loc : Int), ⟨loc, "Integer overflow"⟩)
          else decLoop str size err cnt (loc + 1) (mod64 (r + (c - 48)))
        else finishUint size err loc res
    else finishUint size err loc res

/-- `parseContext.parseUint64` from parsers.go: scan a hexadecimal, octal
or decimal unsigned literal at `location`; `size` is the bit width of the
destination slot.  Returns the value, the new offset (negative on
failure) and the updated error record. -/
def parseUint64 (str : ByteStr) (location : Nat) (size : Nat)
    (err : PError) : Nat × Int × PError :=
  if location ≥ str.length then
    (0, -1, ⟨location, "Unexpected end of file. Waiting for integer literal."⟩)
  else
    let c := str.getD location 0
    if c = 48 then
      if location + 1 < str.length ∧
          (str.getD (location + 1) 0 = 120 ∨ str.getD (location + 1) 0 = 88) then
        if location + 2 ≥ str.length then
          (0, -1, ⟨location + 2, "Unexpected end of file in hexadecimal literal."⟩)
        else hexLoop str size err str.length (location + 2) 0
      else octLoop str size err str.length location 0
    else if 48 < c ∧ c ≤ 57 then decLoop str size err str.length location 0
    else (0, -1, ⟨location, "Waiting for integer literal"⟩)

/-- `parseContext.parseInt64` from parsers.go: optional leading minus,
then `parseUint64`; a set sign bit of the magnitude is reported as
overflow with `return 0, location` (the location after the sign). -/
def parseInt64 (str : ByteStr) (location : Nat) (size : Nat)
    (err : PError) : Int × Int × PError :=
  if location ≥ str.length then
    (0, -1, ⟨err.loc, "Unexpected end of file. Waiting for integer."⟩)
  else
    let neg := str.getD location 0 = 45
    let location := if neg then location + 1 else location
    let (v, l, e) := parseUint64 str location size err
    if l < 0 then (0, l, e)
    else if v &&& 0x8000000000000000 ≠ 0 then
      (0, (location : Int), ⟨location, "Integer overflow"⟩)
    else
      let res : Int := (v : Int)
      (if neg then -res else res, l, e)

/-- Go `utf8.DecodeRune` on a byte slice: returns the decoded rune and its
size in bytes; `(0xFFFD, 1)` for invalid encodings (overlong forms,
surrogates, stray bytes), `(0xFFFD, 0)` for empty input. -/
def utf8DecodeRune (p : ByteStr) : Int × Nat :=
  match p with
  | [] => (0xFFFD, 0)
  | b0 :: rest =>
    if b0 < 0x80 then ((b0 : Int), 1)
    else if 0xC2 ≤ b0 ∧ b0 ≤ 0xDF then
      match rest with
      | b1 :: _ =>
        if 0x80 ≤ b1 ∧ b1 ≤ 0xBF then
          (((b0 - 0xC0) * 64 + (b1 - 0x80) : Nat), 2)
        else (0xFFFD, 1)
      | [] => (0xFFFD, 1)
    else if 0xE0 ≤ b0 ∧ b0 ≤ 0xEF then
      match rest with
      | b1 :: b2 :: _ =>
        let lo1 : Nat := if b0 = 0xE0 then 0xA0 else 0x80
        let hi1 : Nat := if b0 = 0xED then 0x9F else 0xBF
        if (lo1 ≤ b1 ∧ b1 ≤ hi1) ∧ (0x80 ≤ b2 ∧ b2 ≤ 0xBF) then
          (((b0 - 0xE0) * 4096 + (b1 - 0x80) * 64 + (b2 - 0x80) : Nat), 3)
        else (0xFFFD, 1)
      | _ => (0xFFFD, 1)
    else if 0xF0 ≤ b0 ∧ b0 ≤ 0xF4 then
      match rest with
      | b1 :: b2 :: b3 :: _ =>
        let lo1 : Nat := if b0 = 0xF0 then 0x90 else 0x80
        let hi1 : Nat := if b0 = 0xF4 then 0x8F else 0xBF
        if (lo1 ≤ b1 ∧ b1 ≤ hi1) ∧ (0x80 ≤ b2 ∧ b2 ≤ 0xBF) ∧
            (0x80 ≤ b3 ∧ b3 ≤ 0xBF) then
          (((b0 - 0xF0) * 262144 + (b1 - 0x80) * 4096 + (b2 - 0x80) * 64 +
              (b3 - 0x80) : Nat), 4)
        else (0xFFFD, 1)
      | _ => (0xFFFD, 1)
    else (0xFFFD, 1)

/-- Go `utf8.ValidRune`: excludes surrogate halves and out-of-range code
points. -/
def validRune (r : Int) : Bool :=
  (0 ≤ r ∧ r < 0xD800) ∨ (0xDFFF < r ∧ r ≤ 0x10FFFF)

/-- UTF-8 encoding as performed by `bytes.Buffer.WriteRune`: runes below
`0x80` (including, by the Go fast path, negative ones reduced mod 256) are
written as a single byte; invalid runes encode as U+FFFD. -/
def utf8EncodeRune (r : Int) : ByteStr :=
  if r < 0x80 then [(r % 256).toNat]
  else
    let n := r.toNat
    if n ≤ 0x7FF then [0xC0 + n / 64, 0x80 + n % 64]
    else if n ≤ 0xFFFF then
      if 0xD800 ≤ n ∧ n ≤ 0xDFFF then [0xEF, 0xBF, 0xBD]
      else [0xE0 + n / 4096, 0x80 + n / 64 % 64, 0x80 + n % 64]
    else if n ≤ 0x10FFFF then
      [0xF0 + n / 262144, 0x80 + n / 4096 % 64, 0x80 + n / 64 % 64,
        0x80 + n % 64]
    else [0xEF, 0xBF, 0xBD]

/-- Three-octal-digit accumulation of `parseContext.parseUnicodeValue`
(parsers.go).  `l1` is the position of the first digit. -/
def octalEscape (str : ByteStr) (l1 : Nat) (err : PError) :
    Int × Int × PError :=
  if l1 + 2 ≥ str.length then
    (0, -1, ⟨l1, "Unexpected end of file in escape sequence"⟩)
  else
    let d0 := str.getD l1 0
    let d1 := str.getD (l1 + 1) 0
    let d2 := str.getD (l1 + 2) 0
    if (48 ≤ d0 ∧ d0 ≤ 55) ∧ (48 ≤ d1 ∧ d1 ≤ 55) ∧ (48 ≤ d2 ∧ d2 ≤ 55) then
      (((d0 - 48) * 64 + (d1 - 48) * 8 + (d2 - 48) : Nat), ((l1 + 3 : Nat) : Int),
        err)
    else (0, -1, ⟨l1, "Invalid character in octal_byte"⟩)

/-- Hex-digit accumulation (`\x`, `\u`, `\U`) of
`parseContext.parseUnicodeValue`: `count` digits starting at `l2`, with Go
`rune` (int32) wrap-around. -/
def hexEscapeAcc (str : ByteStr) (l2 : Nat) : Nat → Nat → Int → Option Int
  | 0, _, r => some r
  | count + 1, i, r =>
    let c := str.getD (l2 + i) 0
    if 48 ≤ c ∧ c ≤ 57 then
      hexEscapeAcc str l2 count (i + 1) (wrap32 (r * 16 + ((c - 48 : Nat))))
    else if 97 ≤ c ∧ c ≤ 102 then
      hexEscapeAcc str l2 count (i + 1) (wrap32 (r * 16 + ((c - 97 : Nat)) + 10))
    else if 65 ≤ c ∧ c ≤ 70 then
      hexEscapeAcc str l2 count (i + 1) (wrap32 (r * 16 + ((c - 65 : Nat)) + 10))
    else none

/-- The `\x`, `\u`, `\U` branch of `parseContext.parseUnicodeValue`
(parsers.go).  `l1` is the position of the selector character, `l` the
digit count. -/
def hexEscape (str : ByteStr) (l1 : Nat) (l : Nat) (err : PError) :
    Int × Int × PError :=
  if l1 + l ≥ str.length then
    (0, -1, ⟨l1, "Unexpected end of file in escape sequence"⟩)
  else
    let l2 := l1 + 1
    match hexEscapeAcc str l2 l 0 0 with
    | none => (0, -1, ⟨l2, "Illegal character in hex code"⟩)
    | some r =>
      if ¬ validRune r then (0, -1, ⟨l2, "Invalid rune"⟩)
      else (r, ((l2 + l : Nat) : Int), err)

/-- The escaped-character dispatch of `parseContext.parseUnicodeValue`
(parsers.go), entered after the backslash; `l1` is the position of the
selector byte (known to be in bounds).  The octal branch guard
`ctx.str[location] >= '0' && ctx.str[location] < 3` is transcribed
literally. -/
def parseEscape (str : ByteStr) (l1 : Nat) (err : PError) :
    Int × Int × PError :=
  let c := str.getD l1 0
  if c = 92 then (92, ((l1 + 1 : Nat) : Int), err)
  else if c = 97 then (7, ((l1 + 1 : Nat) : Int), err)
  else if c = 98 then (8, ((l1 + 1 : Nat) : Int), err)
  else if c = 102 then (12, ((l1 + 1 : Nat) : Int), err)
  else if c = 110 then (10, ((l1 + 1 : Nat) : Int), err)
  else if c = 114 then (13, ((l1 + 1 : Nat) : Int), err)
  else if c = 116 then (9, ((l1 + 1 : Nat) : Int), err)
  else if c = 118 then (11, ((l1 + 1 : Nat) : Int), err)
  else if c = 96 then (96, ((l1 + 1 : Nat) : Int), err)
  else if c = 39 then (39, ((l1 + 1 : Nat) : Int), err)
  else if c = 34 then (34, ((l1 + 1 : Nat) : Int), err)
  else if 48 ≤ c ∧ c < 3 then octalEscape str l1 err
  else if c = 120 ∨ c = 117 ∨ c = 85 then
    hexEscape str l1 (if c = 120 then 2 else if c = 117 then 4 else 8) err
  else (0, -1, ⟨l1, "Invalid escaped char"⟩)

/-- `parseContext.parseUnicodeValue` from parsers.go: one escape sequence
or one UTF-8 character at `location` inside an interpreted string.
Returns the rune, the new offset (negative on failure) and the updated
error record. -/
def parseUnicodeValue (str : ByteStr) (location : Nat) (err : PError) :
    Int × Int × PError :=
  if location ≥ str.length then
    (0, -1, ⟨location, "Unexpected end of file: waiting for Unicode character"⟩)
  else if str.getD location 0 = 92 then
    if location + 1 ≥ str.length then
      (0, -1, ⟨location + 1, "Unexpected end of file in escape sequence"⟩)
    else parseEscape str (location + 1) err
  else
    let (r, sz) := utf8DecodeRune (str.drop location)
    if sz = 0 then (0, -1, ⟨location, "Invalid Unicode character"⟩)
    else (r, ((location + sz : Nat) : Int), err)

/-- `utf8DecodeRune` never reports a size larger than its input, and on
nonempty input the size is at least one byte. -/
theorem utf8DecodeRune_size (p : ByteStr) :
    (utf8DecodeRune p).2 ≤ p.length ∧ (p ≠ [] → 1 ≤ (utf8DecodeRune p).2) := by
  unfold utf8DecodeRune
  split
  · simp
  next b0 rest =>
    rcases rest with _ | ⟨b1, _ | ⟨b2, _ | ⟨b3, r4⟩⟩⟩ <;> dsimp only <;>
      split_ifs <;> simp_all

/-- A successful `octalEscape` returns offset `l1 + 3`, inside the
input. -/
theorem octalEscape_pos (str : ByteStr) (l1 : Nat) (e : PError) :
    0 ≤ (octalEscape str l1 e).2.1 →
      (l1 : Int) < (octalEscape str l1 e).2.1 ∧
        (octalEscape str l1 e).2.1 ≤ (str.length : Int) := by
  unfold octalEscape
  dsimp only
  split_ifs with o1 o2 <;> simp <;> omega

/-- A successful `hexEscape` returns offset `l1 + 1 + l`, inside the
input. -/
theorem hexEscape_pos (str : ByteStr) (l1 l : Nat) (e : PError) :
    0 ≤ (hexEscape str l1 l e).2.1 →
      (l1 : Int) < (hexEscape str l1 l e).2.1 ∧
        (hexEscape str l1 l e).2.1 ≤ (str.length : Int) := by
  unfold hexEscape
  dsimp only
  split_ifs with o1
  · simp
  · rcases hhex : hexEscapeAcc str (l1 + 1) l 0 0 with _ | r
    · simp [hhex]
    · simp only [hhex]
      split_ifs with hv
      · intro _
        constructor <;> push_cast <;> omega
      · simp

/-- A successful `parseEscape` strictly advances past `l1` and stays
inside the input (given that the selector byte is in bounds). -/
theorem parseEscape_pos (str : ByteStr) (l1 : Nat) (e : PError)
    (hb : l1 < str.length) :
    0 ≤ (parseEscape str l1 e).2.1 →
      (l1 : Int) < (parseEscape str l1 e).2.1 ∧
        (parseEscape str l1 e).2.1 ≤ (str.length : Int) := by
  have ho := octalEscape_pos str l1 e
  have hx2 := hexEscape_pos str l1 2 e
  have hx4 := hexEscape_pos str l1 4 e
  have hx8 := hexEscape_pos str l1 8 e
  unfold parseEscape
  dsimp only
  simp only [apply_ite (fun p : Int × Int × PError => p.2.1),
    apply_ite (fun n : Nat => (hexEscape str l1 n e).2.1)]
  omega

/-- A successful `parseUnicodeValue` strictly advances the offset and stays
inside the input. -/
theorem parseUnicodeValue_pos (str : ByteStr) (loc : Nat) (e : PError) :
    0 ≤ (parseUnicodeValue str loc e).2.1 →
      (loc : Int) < (parseUnicodeValue str loc e).2.1 ∧
        (parseUnicodeValue str loc e).2.1 ≤ (str.length : Int) := by
  unfold parseUnicodeValue
  split_ifs with h1 h2 h3
  · simp
  · simp
  · intro h
    have := parseEscape_pos str (loc + 1) e (by omega) h
    constructor <;> omega
  · -- plain UTF-8 character
    have hsz := utf8DecodeRune_size (str.drop loc)
    rcases hdecode : utf8DecodeRune (str.drop loc) with ⟨r, sz⟩
    rw [hdecode] at hsz
    simp only [hdecode]
    split_ifs with hz
    · simp
    · intro _
      have hne : str.drop loc ≠ [] := by
        intro hcon
        have := List.length_eq_zero.mpr hcon
        simp [List.length_drop] at this
        omega
      have h1sz : 1 ≤ sz := hsz.2 hne
      have h2sz : sz ≤ str.length - loc := by
        have := hsz.1
        simpa [List.length_drop] using this
      constructor <;> simp <;> omega

/-- Raw (backtick) string loop of `parseContext.parseString` (parsers.go):
bytes are copied, carriage returns silently dropped, a closing backtick
ends the string.  `cnt` is a structural countdown; the loop advances one
byte per step, so `cnt = str.length + 1` can only run out past the end of
the input, where the loop exit result is returned. -/
def rawStrLoop (str : ByteStr) (err : PError) : Nat → ByteStr → Nat →
    ByteStr × Int × PError
  | 0, _, loc => ([], -1, ⟨(loc : Int), "Waiting for Go string"⟩)
  | cnt + 1, buf, loc =>
    if loc < str.length then
      let c := str.getD loc 0
      if c = 96 then (buf, ((loc + 1 : Nat) : Int), err)
      else if c = 13 then rawStrLoop str err cnt buf (loc + 1)
      else rawStrLoop str err cnt (buf ++ [c]) (loc + 1)
    else ([], -1, ⟨(loc : Int), "Waiting for Go string"⟩)

/-- Interpreted (double-quoted) string loop of `parseContext.parseString`
(parsers.go): each step consumes one `parseUnicodeValue`; an escape of
four bytes producing `0x80..0xff` appends the raw byte, anything else
appends the UTF-8 encoding of the rune (`bytes.Buffer.WriteRune` never
fails, so the `WriteRune` error branch of the source is unreachable). -/
def interpStrLoop (str : ByteStr) : Nat → PError → ByteStr → Nat →
    ByteStr × Int × PError
  | 0, _, _, loc => ([], -1, ⟨(loc : Int), "Waiting for Go string"⟩)
  | cnt + 1, err, buf, loc =>
    if loc < str.length then
      if str.getD loc 0 = 34 then (buf, ((loc + 1 : Nat) : Int), err)
      else
        match parseUnicodeValue str loc err with
        | (r, l, e2) =>
          if l < 0 then ([], l, e2)
          else
            let buf2 :=
              if 0x80 ≤ r ∧ r ≤ 0xff ∧ l - (loc : Int) = 4 then
                buf ++ [r.toNat]
              else buf ++ utf8EncodeRune r
            interpStrLoop str cnt e2 buf2 l.toNat
    else ([], -1, ⟨(loc : Int), "Waiting for Go string"⟩)

/-- `parseContext.parseString` from parsers.go: a raw or interpreted Go
string literal.  (The Go code indexes `ctx.str[location]` without a bounds
check; the model reads byte 0 out of range, which falls through to the
same "Waiting for Go string" failure.) -/
def parseString (str : ByteStr) (location : Nat) (err : PError) :
    ByteStr × Int × PError :=
  if str.getD location 0 = 96 then
    rawStrLoop str err (str.length + 1) [] (location + 1)
  else if str.getD location 0 = 34 then
    interpStrLoop str (str.length + 1) err [] (location + 1)
  else ([], -1, ⟨(location : Int), "Waiting for Go string"⟩)

/-- `SkipSpaces` from append.go: skip blanks, tabs, newlines and carriage
returns; reaching the end of the loop returns `len(str)`. -/
def SkipSpaces (str : ByteStr) (loc : Nat) : Nat :=
  if loc < str.length then
    let c := str.getD loc 0
    if c ≠ 32 ∧ c ≠ 9 ∧ c ≠ 10 ∧ c ≠ 13 then loc
    else SkipSpaces str (loc + 1)
  else str.length
termination_by str.length - loc

/-- The scan of `SkipOneLineComment` (append.go) after the opener matched:
advance to just past the next newline, or to the end of input.  `cnt` is
a structural countdown with the same convention as `rawStrLoop`. -/
def skipToNewline (str : ByteStr) : Nat → Nat → Nat
  | 0, loc => loc
  | cnt + 1, loc =>
    if loc < str.length then
      if str.getD loc 0 = 10 then loc + 1 else skipToNewline str cnt (loc + 1)
    else loc

/-- `SkipOneLineComment` from append.go: skip a comment that starts with
`opener` and ends with a newline or the end of the input. -/
def SkipOneLineComment (str : ByteStr) (loc : Nat) (opener : ByteStr) : Nat :=
  if strAt str loc opener then
    skipToNewline str (str.length + 1) (loc + opener.length)
  else loc

/-- `SkipShellComment` from append.go. -/
def SkipShellComment (str : ByteStr) (loc : Nat) : Nat :=
  SkipOneLineComment str loc (bytes "#")

/-- `SkipCPPComment` from append.go. -/
def SkipCPPComment (str : ByteStr) (loc : Nat) : Nat :=
  SkipOneLineComment str loc (bytes "//")

/-- `SkipAdaComment` from append.go. -/
def SkipAdaComment (str : ByteStr) (loc : Nat) : Nat :=
  SkipOneLineComment str loc (bytes "--")

/-- `SkipLispComment` from append.go. -/
def SkipLispComment (str : ByteStr) (loc : Nat) : Nat :=
  SkipOneLineComment str loc (bytes ";")

/-- `SkipTeXComment` from append.go, transcribed literally: despite its
doc comment `Skip TeX style comment: "% .... \n"`, the source passes the
opener `";"` to `SkipOneLineComment`. -/
def SkipTeXComment (str : ByteStr) (loc : Nat) : Nat :=
  SkipOneLineComment str loc (bytes ";")

mutual

/-- `SkipMultilineComment` from append.go: skip a comment delimited by
`opener`/`closer`, optionally nested.  The scan loop stops before
`str.length - closer.length`, so a closer that ends exactly at the end of
the input is never found.  The Go original can recurse without bound (an
empty opener with `recursive` set loops forever); the model takes fuel
and returns `none` when it is exhausted. -/
def SkipMultilineComment (fuel : Nat) (str : ByteStr) (loc : Nat)
    (opener closer : ByteStr) (recursive : Bool) : Option Nat :=
  if strAt str loc opener then
    smcScan fuel str loc opener closer recursive (loc + opener.length)
  else some loc
termination_by (fuel, 1, 0)

/-- The scan loop of `SkipMultilineComment` (append.go); `i` is the Go
loop variable, `loc` the offset the function was entered with.  After a
nested comment returning `j ≠ i`, Go sets `i = j - 1` and the loop
increment makes the next probe happen at `j`; the model consumes one unit
of fuel there because `j` is not structurally smaller. -/
def smcScan (fuel : Nat) (str : ByteStr) (loc : Nat)
    (opener closer : ByteStr) (recursive : Bool) (i : Nat) : Option Nat :=
  if i < str.length - closer.length then
    if strAt str i closer then some (i + closer.length)
    else if recursive && strAt str i opener then
      match fuel with
      | 0 => none
      | f + 1 =>
        match SkipMultilineComment f str i opener closer recursive with
        | none => none
        | some j =>
          if j = i then some loc
          else smcScan f str loc opener closer recursive j
    else smcScan fuel str loc opener closer recursive (i + 1)
  else some loc
termination_by (fuel, 0, str.length - closer.length - i)

end

/-- `SkipCComment` from append.go. -/
def SkipCComment (fuel : Nat) (str : ByteStr) (loc : Nat) : Option Nat :=
  SkipMultilineComment fuel str loc (bytes "/*") (bytes "*/") false

/-- `SkipPascalComment` from append.go (nested). -/
def SkipPascalComment (fuel : Nat) (str : ByteStr) (loc : Nat) : Option Nat :=
  SkipMultilineComment fuel str loc (bytes "(*") (bytes "*)") true

/-- `SkipHTMLComment` from append.go. -/
def SkipHTMLComment (fuel : Nat) (str : ByteStr) (loc : Nat) : Option Nat :=
  SkipMultilineComment fuel str loc (bytes "<!--") (bytes "-->") false

/-- The iterative seed-growing loop of `parseContext.parse` (append.go,
the `for` loop of the left-recursion branch).  `step k` stands for the
result of the `k`-th re-invocation of `p.ParseValue` (each re-invocation
reads the current seed from the packrat entry, so successive results may
differ), `seed` is the entry's current `new_loc`.  A failed step or a
step that does not advance strictly past a non-negative seed stops the
loop with the seed; otherwise the seed is replaced.  The Go loop has no
fuel; the model returns `none` when the fuel runs out. -/
def lrGrow (step : Nat → Int) (fuel : Nat) (k : Nat) (seed : Int) :
    Option Int :=
  match fuel with
  | 0 => none
  | f + 1 =>
    let l := step k
    if l < 0 then some seed
    else if 0 ≤ seed ∧ l ≤ seed then some seed
    else lrGrow step f (k + 1) l

/-- Parse values, mirroring the reflected Go values the engine writes:
strings, booleans, signed and unsigned integers, structs (with the
`FirstOf.Field` branch tag), slices and pointers. -/
inductive GoVal where
  | vstr (s : ByteStr)
  | vbool (b : Bool)
  | vint (n : Int)
  | vuint (n : Nat)
  | vstruct (tag : String) (slots : List GoVal)
  | vlist (elems : List GoVal)
  | vptr (v : Option GoVal)
deriving Repr

/-- A compiled `field` (parsers.go): name, anonymity (`Index < 0` in the
source), lookahead flags, the child parser id, and the optional post-parse
callback (`set:"..."`, an arbitrary user function from the parsed value to
an error message). -/
structure PField where
  name : String
  anonymous : Bool
  flags : Nat
  parse : Nat
  setHook : Option (GoVal → Option String)

/-- `fieldNotAny` from parsers.go. -/
def fieldNotAny : Nat := 1

/-- `fieldFollowedBy` from parsers.go. -/
def fieldFollowedBy : Nat := 2

/-- A compiled parser node (parsers.go / compile.go).  Children are
referenced by parser id, as the compiled Go graph references shared
parser objects carrying ids; `regexpParser`, `floatParser` and the
user-`Parser` hook are outside this model. -/
inductive PNode where
  | lit (s : ByteStr)
  | boolean
  | intP (bits : Nat)
  | uintP (bits : Nat)
  | strP
  | locationP
  | seq (fields : List PField)
  | firstOf (fields : List PField)
  | slice (inner : Nat) (delim : ByteStr) (min : Nat)
  | ptr (inner : Nat) (optional : Bool)

/-- Node of a grammar by id (ids are assigned densely by `compile`). -/
def nodeAt (g : List PNode) (id : Nat) : PNode := g.getD id (.lit [])

/-- The grammar has no `set` callbacks.  Post-parse callbacks are
arbitrary user code that can inspect the parsed value. -/
def hookFree (g : List PNode) : Prop :=
  ∀ n ∈ g, match n with
    | .seq fields => ∀ f ∈ fields, f.setHook = none
    | .firstOf fields => ∀ f ∈ fields, f.setHook = none
    | _ => True

/-- The zero value `reflect.New(tp).Elem()` of the Go type parsed by node
`id`; `fuel` bounds the unfolding of struct nesting. -/
def defaultVal (g : List PNode) : Nat → Nat → GoVal
  | 0, _ => .vbool false
  | fuel + 1, id =>
    match nodeAt g id with
    | .lit _ => .vstr []
    | .boolean => .vbool false
    | .intP _ => .vint 0
    | .uintP _ => .vuint 0
    | .strP => .vstr []
    | .locationP => .vint 0
    | .seq fields => .vstruct "" (fields.map fun f => defaultVal g fuel f.parse)
    | .firstOf fields => .vstruct "" (fields.map fun f => defaultVal g fuel f.parse)
    | .slice _ _ _ => .vlist []
    | .ptr _ _ => .vptr none

/-- Write slot `idx` of a struct value (a no-op on other values). -/
def setSlot (v : GoVal) (idx : Nat) (x : GoVal) : GoVal :=
  match v with
  | .vstruct tag slots => .vstruct tag (slots.set idx x)
  | other => other

/-- Write the `FirstOf.Field` branch tag of a struct value. -/
def setTag (v : GoVal) (name : String) : GoVal :=
  match v with
  | .vstruct _ slots => .vstruct name slots
  | other => other

/-- A packrat table entry (`packratValue` in append.go); `value = none`
models an invalid (`!IsValid`) `reflect.Value`. -/
structure PVal where
  parsed : Bool
  recursionLevel : Nat
  newLoc : Int
  value : Option GoVal
  msg : String
  errLoc : Int

/-- The mutable per-parse state: the packrat table (a map keyed by
(parser id, offset)) and the set of offsets at which left recursion was
observed. -/
structure PState where
  packrat : List ((Nat × Nat) × PVal)
  recursiveLocations : List Nat

/-- Map lookup in the packrat table. -/
def pkLookup (s : List ((Nat × Nat) × PVal)) (k : Nat × Nat) : Option PVal :=
  (s.find? (fun e => e.1 = k)).map (fun e => e.2)

/-- Map write (replace or insert) in the packrat table. -/
def pkSet (s : List ((Nat × Nat) × PVal)) (k : Nat × Nat) (v : PVal) :
    List ((Nat × Nat) × PVal) :=
  if (s.find? (fun e => e.1 = k)).isSome then
    s.map (fun e => if e.1 = k then (k, v) else e)
  else (k, v) :: s

/-- Map delete in the packrat table. -/
def pkDelete (s : List ((Nat × Nat) × PVal)) (k : Nat × Nat) :
    List ((Nat × Nat) × PVal) :=
  s.filter (fun e => e.1 ≠ k)

/-- `Options` from append.go (the `Debug` flag only prints and is
omitted). -/
structure POptions where
  skipWhite : Option (ByteStr → Nat → Nat)
  packratEnabled : Bool

/-- `parseContext.skipWS` from append.go: apply the configured skip
function, keeping its answer only when it does not move backwards. -/
def skipWS (opts : POptions) (str : ByteStr) (loc : Nat) : Nat :=
  match opts.skipWhite with
  | none => loc
  | some f => let l := f str loc; if loc ≤ l then l else loc

/-- The error-selection step of `firstOfParser.ParseValue` (parsers.go):
keep the branch failure only when its offset is strictly greater than the
best so far (so equal offsets keep the earlier failure). -/
def firstOfPick (maxErr e : PError) : PError :=
  if e.loc > maxErr.loc then e else maxErr

/-- Rendering of a byte string for error messages. -/
def byteStr (b : ByteStr) : String := String.mk (b.map Char.ofNat)

/-- Identifier-continuation test of `boolParser.ParseValue`
(parsers.go). -/
def identChar (c : Nat) : Bool :=
  c = 95 ∨ (97 ≤ c ∧ c ≤ 122) ∨ (65 ≤ c ∧ c ≤ 90) ∨ (48 ≤ c ∧ c ≤ 57)

/-- Outcome of an engine computation: `ok` carries the returned offset
(negative on parse failure), the value written to the destination slot
(on failure: the partial value the attempt left behind), the error
record, and the state; `bug` is a Go `panic` aborting the whole parse;
`fuelOut` reports exhausted fuel (the Go code has no fuel). -/
inductive Outcome where
  | ok (l : Int) (v : GoVal) (e : PError) (s : PState)
  | bug (msg : String)
  | fuelOut

/-- The pending computations of the engine: `parse` is
`parseContext.parse` (append.go), `node` a `ParseValue` dispatch,
`fieldStep` is `field.ParseValue`, `fieldsSeq` / `fieldsFirst` the loops
of `sequenceParser.ParseValue` / `firstOfParser.ParseValue`, `sliceLoop`
the loop of `sliceParser.ParseValue` and `lrLoop` the seed-growing loop
of `parseContext.parse`. -/
inductive Call where
  | parse (id : Nat) (loc : Nat)
  | node (id : Nat) (loc : Nat)
  | fieldStep (f : PField) (loc : Nat)
  | fieldsSeq (fields : List PField) (idx : Nat) (cur : GoVal) (loc : Nat)
  | fieldsFirst (fields : List PField) (idx : Nat) (cur : GoVal)
      (maxErr : PError) (loc : Nat)
  | sliceLoop (inner : Nat) (delim : ByteStr) (min : Nat)
      (vals : List GoVal) (loc : Nat)
  | lrLoop (id : Nat) (loc : Nat)

/-- Placeholder packrat entry for total lookups (never observed: the
entry is always present when it is read back). -/
def dfltPV : PVal := ⟨false, 0, -1, none, "", 0⟩

/-- The parse engine: a fuel-indexed transcription of
`parseContext.parse` (append.go) and the `ParseValue` methods
(parsers.go).  `g` is the compiled grammar, `names` the parser names used
in diagnostics (`p.String()`), `lrMap` the per-node left-recursion state
`IsLR()` computed at compile time, `opts` the options, `str` the input.
Every recursive call decrements the fuel once. -/
def run (g : List PNode) (names : Nat → String) (lrMap : Nat → Int)
    (opts : POptions) (str : ByteStr) :
    Nat → Call → PError → PState → Outcome
  | 0, _, _, _ => .fuelOut
  | fuel + 1, c, err, s =>
    match c with
    | .parse id loc0 =>
      let loc := skipWS opts str loc0
      if ¬ opts.packratEnabled ∧ 0 < lrMap id then
        run g names lrMap opts str fuel (.node id loc) err s
      else
        let key := (id, loc)
        match pkLookup s.packrat key with
        | some cache =>
          if cache.parsed then
            if 0 ≤ cache.newLoc then
              .ok cache.newLoc (cache.value.getD (defaultVal g fuel id)) err s
            else .ok cache.newLoc (defaultVal g fuel id)
              ⟨cache.errLoc, cache.msg⟩ s
          else if cache.recursionLevel = 0 then
            let c2 := { cache with
              recursionLevel := 1
              msg := "Waiting for " ++ names id
              newLoc := -1
              errLoc := (loc : Int) }
            .ok (-1) (defaultVal g fuel id) err
              { packrat := pkSet s.packrat key c2,
                recursiveLocations := loc :: s.recursiveLocations }
          else
            if 0 ≤ cache.newLoc then
              .ok cache.newLoc (cache.value.getD (defaultVal g fuel id)) err s
            else .ok cache.newLoc (defaultVal g fuel id)
              ⟨cache.errLoc, cache.msg⟩ s
        | none =>
          let s1 : PState := { s with
            packrat := pkSet s.packrat key ⟨false, 0, (loc : Int), none, "", 0⟩ }
          match run g names lrMap opts str fuel (.node id loc) err s1 with
          | .ok l v e s2 =>
            let cache := (pkLookup s2.packrat key).getD dfltPV
            if cache.recursionLevel = 0 then
              if ¬ s2.recursiveLocations.contains loc then
                if ¬ opts.packratEnabled then
                  .ok l v e { s2 with packrat := pkDelete s2.packrat key }
                else
                  let c2 := { cache with
                    parsed := true
                    msg := e.msg
                    errLoc := e.loc
                    value := if 0 ≤ l then some v else cache.value
                    newLoc := l }
                  .ok l v e { s2 with packrat := pkSet s2.packrat key c2 }
              else .ok l v e { s2 with packrat := pkDelete s2.packrat key }
            else
              let c2 := { cache with
                newLoc := l
                msg := e.msg
                errLoc := e.loc
                value := if 0 ≤ l then some v else cache.value
                recursionLevel := 2 }
              run g names lrMap opts str fuel (.lrLoop id loc) e
                { packrat := pkSet s2.packrat key c2,
                  recursiveLocations := loc :: s2.recursiveLocations }
          | other => other
    | .node id loc =>
      match nodeAt g id with
      | .lit lit =>
        if strAt str loc lit then
          .ok ((loc + lit.length : Nat) : Int) (.vstr lit) err s
        else .ok (-1) (.vstr [])
          ⟨(loc : Int), "Waiting for '" ++ byteStr lit ++ "'"⟩ s
      | .boolean =>
        if strAt str loc (bytes "true") then
          if loc + 4 < str.length ∧ identChar (str.getD (loc + 4) 0) then
            .ok (-1) (.vbool true) ⟨((loc + 4 : Nat) : Int), "Waiting for boolean value"⟩ s
          else .ok ((loc + 4 : Nat) : Int) (.vbool true) err s
        else if strAt str loc (bytes "false") then
          if loc + 5 < str.length ∧ identChar (str.getD (loc + 5) 0) then
            .ok (-1) (.vbool false) ⟨((loc + 5 : Nat) : Int), "Waiting for boolean value"⟩ s
          else .ok ((loc + 5 : Nat) : Int) (.vbool false) err s
        else .ok (-1) (.vbool false) ⟨(loc : Int), "Waiting for boolean value"⟩ s
      | .intP bits =>
        if bits = 32 ∧ loc < str.length ∧ str.getD loc 0 = 39 then
          match parseUnicodeValue str (loc + 1) err with
          | (r, l, e) =>
            if l < 0 then .ok l (.vint 0) e s
            else if str.length ≤ l.toNat ∨ str.getD l.toNat 0 ≠ 39 then
              .ok (-1) (.vint 0)
                ⟨l, "Waiting for closing quote in unicode character"⟩ s
            else .ok (l + 1) (.vint r) e s
        else
          match parseInt64 str loc bits err with
          | (r, l, e) =>
            if l < 0 then .ok l (.vint 0) e s
            else .ok l (.vint r) e s
      | .uintP bits =>
        match parseUint64 str loc bits err with
        | (r, l, e) =>
          if l < 0 then .ok l (.vuint 0) e s
          else .ok l (.vuint r) e s
      | .strP =>
        match parseString str loc err with
        | (v, l, e) =>
          if l < 0 then .ok l (.vstr []) e s
          else .ok l (.vstr v) e s
      | .locationP => .ok (loc : Int) (.vint (loc : Int)) err s
      | .seq fields =>
        run g names lrMap opts str fuel
          (.fieldsSeq fields 0 (defaultVal g fuel id) loc) err s
      | .firstOf fields =>
        run g names lrMap opts str fuel
          (.fieldsFirst fields 0 (defaultVal g fuel id)
            ⟨(loc : Int) - 1, "No choices in first of"⟩ loc) err s
      | .slice inner delim min =>
        run g names lrMap opts str fuel (.sliceLoop inner delim min [] loc) err s
      | .ptr inner opt =>
        match run g names lrMap opts str fuel (.parse inner loc) err s with
        | .ok l v e s2 =>
          if l < 0 then
            if opt then .ok (loc : Int) (.vptr none) e s2
            else .ok l (.vptr none) e s2
          else .ok l (.vptr (some v)) e s2
        | other => other
    | .fieldStep f loc =>
      match run g names lrMap opts str fuel (.parse f.parse loc) err s with
      | .ok l v e s2 =>
        if f.flags &&& fieldNotAny ≠ 0 then
          if 0 ≤ l then
            .ok (-1) v ⟨(loc : Int), "Unexpected input: " ++ names f.parse⟩ s2
          else .ok (loc : Int) v e s2
        else if f.flags &&& fieldFollowedBy ≠ 0 then
          if l < 0 then .ok l v e s2
          else .ok (loc : Int) v e s2
        else
          if l < 0 then .ok l v e s2
          else
            match f.setHook with
            | some hook =>
              match hook v with
              | some m => .ok (-l) v ⟨l, "Set failed: " ++ m⟩ s2
              | none => .ok ((skipWS opts str l.toNat : Nat) : Int) v e s2
            | none => .ok ((skipWS opts str l.toNat : Nat) : Int) v e s2
      | other => other
    | .fieldsSeq fields idx cur loc =>
      match fields with
      | [] => .ok (loc : Int) cur err s
      | f :: rest =>
        match run g names lrMap opts str fuel (.fieldStep f loc) err s with
        | .ok l v e s2 =>
          let cur2 := if f.anonymous then cur else setSlot cur idx v
          if l < 0 then .ok l cur2 e s2
          else
            run g names lrMap opts str fuel (.fieldsSeq rest (idx + 1) cur2 l.toNat)
              e s2
        | other => other
    | .fieldsFirst fields idx cur maxErr loc =>
      match fields with
      | [] => .ok (-1) cur ⟨maxErr.loc, maxErr.msg⟩ s
      | f :: rest =>
        match run g names lrMap opts str fuel (.fieldStep f loc) err s with
        | .ok l v e s2 =>
          let cur2 := if f.anonymous then cur else setSlot cur idx v
          if 0 ≤ l then .ok l (setTag cur2 f.name) e s2
          else
            run g names lrMap opts str fuel
              (.fieldsFirst rest (idx + 1) cur2 (firstOfPick maxErr e) loc) e s2
        | other => other
    | .sliceLoop inner delim min vals loc =>
      match run g names lrMap opts str fuel (.parse inner loc) err s with
      | .ok nl v e s2 =>
        if nl < 0 then
          if min ≤ vals.length then .ok (loc : Int) (.vlist vals) e s2
          else .ok nl (.vlist vals) e s2
        else if nl ≤ (loc : Int) then
          .bug "Invalid grammar: 0-length member of ZeroOrMore"
        else
          let vals2 := vals ++ [v]
          if 0 < delim.length then
            let nl2 := skipWS opts str nl.toNat
            if strAt str nl2 delim then
              run g names lrMap opts str fuel
                (.sliceLoop inner delim min vals2
                  (skipWS opts str (nl2 + delim.length))) e s2
            else .ok (nl2 : Int) (.vlist vals2) e s2
          else
            run g names lrMap opts str fuel (.sliceLoop inner delim min vals2 nl.toNat)
              e s2
      | other => other
    | .lrLoop id loc =>
      let key := (id, loc)
      let c0 := { ((pkLookup s.packrat key).getD dfltPV) with recursionLevel := 2 }
      let s0 : PState := { s with packrat := pkSet s.packrat key c0 }
      match run g names lrMap opts str fuel (.node id loc) err s0 with
      | .ok l v e s2 =>
        let cache := (pkLookup s2.packrat key).getD dfltPV
        if l < 0 then
          let val := if 0 ≤ cache.newLoc then
              cache.value.getD (defaultVal g fuel id)
            else v
          .ok cache.newLoc val e
            { s2 with packrat := pkSet s2.packrat key { cache with parsed := true } }
        else if 0 ≤ cache.newLoc ∧ l ≤ cache.newLoc then
          let c2 := { cache with parsed := true, recursionLevel := 0 }
          .ok cache.newLoc (cache.value.getD (defaultVal g fuel id)) e
            { s2 with packrat := pkSet s2.packrat key c2 }
        else
          let c2 := { cache with newLoc := l, value := some v }
          run g names lrMap opts str fuel (.lrLoop id loc) e
            { s2 with packrat := pkSet s2.packrat key c2 }
      | other => other

/-- Outcome of the reference engine: as `Outcome` but without state, and
with an explicit `lrHit` marking a left-recursive re-entry (the stateful
engine detects the same situation through a pending packrat entry). -/
inductive RefOut where
  | ok (l : Int) (v : GoVal) (e : PError)
  | bug (msg : String)
  | fuelOut
  | lrHit (id : Nat) (loc : Nat)
deriving Repr

/-- The reference engine: the same recursive descent as `run`, with no
packrat table and no caching; the ancestor stack `anc` carries the
(id, offset) pairs of the `parseContext.parse` activations still in
progress, and re-entering one of them yields `lrHit` — the situation the
stateful engine handles with its left-recursion machinery.  A grammar is
non-left-recursive on an input exactly when this engine never reports
`lrHit`. -/
def refRun (g : List PNode) (names : Nat → String) (opts : POptions)
    (str : ByteStr) :
    Nat → List (Nat × Nat) → Call → PError → RefOut
  | 0, _, _, _ => .fuelOut
  | fuel + 1, anc, c, err =>
    match c with
    | .parse id loc0 =>
      let loc := skipWS opts str loc0
      if (id, loc) ∈ anc then .lrHit id loc
      else refRun g names opts str fuel ((id, loc) :: anc) (.node id loc) err
    | .node id loc =>
      match nodeAt g id with
      | .lit lit =>
        if strAt str loc lit then
          .ok ((loc + lit.length : Nat) : Int) (.vstr lit) err
        else .ok (-1) (.vstr [])
          ⟨(loc : Int), "Waiting for '" ++ byteStr lit ++ "'"⟩
      | .boolean =>
        if strAt str loc (bytes "true") then
          if loc + 4 < str.length ∧ identChar (str.getD (loc + 4) 0) then
            .ok (-1) (.vbool true) ⟨((loc + 4 : Nat) : Int), "Waiting for boolean value"⟩
          else .ok ((loc + 4 : Nat) : Int) (.vbool true) err
        else if strAt str loc (bytes "false") then
          if loc + 5 < str.length ∧ identChar (str.getD (loc + 5) 0) then
            .ok (-1) (.vbool false) ⟨((loc + 5 : Nat) : Int), "Waiting for boolean value"⟩
          else .ok ((loc + 5 : Nat) : Int) (.vbool false) err
        else .ok (-1) (.vbool false) ⟨(loc : Int), "Waiting for boolean value"⟩
      | .intP bits =>
        if bits = 32 ∧ loc < str.length ∧ str.getD loc 0 = 39 then
          match parseUnicodeValue str (loc + 1) err with
          | (r, l, e) =>
            if l < 0 then .ok l (.vint 0) e
            else if str.length ≤ l.toNat ∨ str.getD l.toNat 0 ≠ 39 then
              .ok (-1) (.vint 0)
                ⟨l, "Waiting for closing quote in unicode character"⟩
            else .ok (l + 1) (.vint r) e
        else
          match parseInt64 str loc bits err with
          | (r, l, e) =>
            if l < 0 then .ok l (.vint 0) e
            else .ok l (.vint r) e
      | .uintP bits =>
        match parseUint64 str loc bits err with
        | (r, l, e) =>
          if l < 0 then .ok l (.vuint 0) e
          else .ok l (.vuint r) e
      | .strP =>
        match parseString str loc err with
        | (v, l, e) =>
          if l < 0 then .ok l (.vstr []) e
          else .ok l (.vstr v) e
      | .locationP => .ok (loc : Int) (.vint (loc : Int)) err
      | .seq fields =>
        refRun g names opts str fuel anc
          (.fieldsSeq fields 0 (defaultVal g fuel id) loc) err
      | .firstOf fields =>
        refRun g names opts str fuel anc
          (.fieldsFirst fields 0 (defaultVal g fuel id)
            ⟨(loc : Int) - 1, "No choices in first of"⟩ loc) err
      | .slice inner delim min =>
        refRun g names opts str fuel anc (.sliceLoop inner delim min [] loc) err
      | .ptr inner opt =>
        match refRun g names opts str fuel anc (.parse inner loc) err with
        | .ok l v e =>
          if l < 0 then
            if opt then .ok (loc : Int) (.vptr none) e
            else .ok l (.vptr none) e
          else .ok l (.vptr (some v)) e
        | other => other
    | .fieldStep f loc =>
      match refRun g names opts str fuel anc (.parse f.parse loc) err with
      | .ok l v e =>
        if f.flags &&& fieldNotAny ≠ 0 then
          if 0 ≤ l then
            .ok (-1) v ⟨(loc : Int), "Unexpected input: " ++ names f.parse⟩
          else .ok (loc : Int) v e
        else if f.flags &&& fieldFollowedBy ≠ 0 then
          if l < 0 then .ok l v e
          else .ok (loc : Int) v e
        else
          if l < 0 then .ok l v e
          else
            match f.setHook with
            | some hook =>
              match hook v with
              | some m => .ok (-l) v ⟨l, "Set failed: " ++ m⟩
              | none => .ok ((skipWS opts str l.toNat : Nat) : Int) v e
            | none => .ok ((skipWS opts str l.toNat : Nat) : Int) v e
      | other => other
    | .fieldsSeq fields idx cur loc =>
      match fields with
      | [] => .ok (loc : Int) cur err
      | f :: rest =>
        match refRun g names opts str fuel anc (.fieldStep f loc) err with
        | .ok l v e =>
          let cur2 := if f.anonymous then cur else setSlot cur idx v
          if l < 0 then .ok l cur2 e
          else
            refRun g names opts str fuel anc (.fieldsSeq rest (idx + 1) cur2 l.toNat) e
        | other => other
    | .fieldsFirst fields idx cur maxErr loc =>
      match fields with
      | [] => .ok (-1) cur ⟨maxErr.loc, maxErr.msg⟩
      | f :: rest =>
        match refRun g names opts str fuel anc (.fieldStep f loc) err with
        | .ok l v e =>
          let cur2 := if f.anonymous then cur else setSlot cur idx v
          if 0 ≤ l then .ok l (setTag cur2 f.name) e
          else
            refRun g names opts str fuel anc
              (.fieldsFirst rest (idx + 1) cur2 (firstOfPick maxErr e) loc) e
        | other => other
    | .sliceLoop inner delim min vals loc =>
      match refRun g names opts str fuel anc (.parse inner loc) err with
      | .ok nl v e =>
        if nl < 0 then
          if min ≤ vals.length then .ok (loc : Int) (.vlist vals) e
          else .ok nl (.vlist vals) e
        else if nl ≤ (loc : Int) then
          .bug "Invalid grammar: 0-length member of ZeroOrMore"
        else
          let vals2 := vals ++ [v]
          if 0 < delim.length then
            let nl2 := skipWS opts str nl.toNat
            if strAt str nl2 delim then
              refRun g names opts str fuel anc
                (.sliceLoop inner delim min vals2
                  (skipWS opts str (nl2 + delim.length))) e
            else .ok (nl2 : Int) (.vlist vals2) e
          else
            refRun g names opts str fuel anc (.sliceLoop inner delim min vals2 nl.toNat) e
      | other => other
    | .lrLoop _ _ => .bug "lrLoop is only reachable in the stateful engine"

/-- Result of the public `Parse` entry point (append.go): the new
location together with the error (`none` on success), a Go panic, or
exhausted fuel. -/
inductive ParseResult where
  | res (newLocation : Int) (errMsg : Option String)
  | panicked (msg : String)
  | fuelOut
deriving Repr, DecidableEq

/-- `Parse` from append.go.  `resultIsPtr` tells whether the dynamic type
of the result argument is a pointer (`reflect.Ptr`); `compiled` is the
outcome of `compile` for the element type (`none` models a compile
error), performed only after the pointer check; `params = none` selects
the default options (skip spaces, packrat off). -/
def Parse (resultIsPtr : Bool) (compiled : Option (List PNode × Nat))
    (names : Nat → String) (lrMap : Nat → Int) (params : Option POptions)
    (str : ByteStr) (fuel : Nat) : ParseResult :=
  if ¬ resultIsPtr then
    .res (-1) (some "Invalid argument for Parse: waiting for pointer")
  else
    match compiled with
    | none => .res (-1) (some "compile failed")
    | some (g, root) =>
      let opts := params.getD ⟨some SkipSpaces, false⟩
      match run g names lrMap opts str fuel (.parse root 0) ⟨0, ""⟩ ⟨[], []⟩ with
      | .ok l _ e _ => if l < 0 then .res l (some e.msg) else .res l none
      | .bug m => .panicked m
      | .fuelOut => .fuelOut

/-- The packrat-table invariant: every completed or probing entry records
a new offset that, when non-negative, is at least the offset the entry is
keyed on. -/
def cacheOK (pk : List ((Nat × Nat) × PVal)) : Prop :=
  ∀ k v, pkLookup pk k = some v → 0 ≤ v.newLoc → ((k.2 : Nat) : Int) ≤ v.newLoc

/-- The starting offset of a pending engine computation. -/
def callLoc : Call → Nat
  | .parse _ loc => loc
  | .node _ loc => loc
  | .fieldStep _ loc => loc
  | .fieldsSeq _ _ _ loc => loc
  | .fieldsFirst _ _ _ _ loc => loc
  | .sliceLoop _ _ _ _ loc => loc
  | .lrLoop _ loc => loc

/-- Similarity of pending computations up to the components that carry
parsed values or accumulated errors: the structure-in-progress of a
sequence, the branch accumulator and best-error of a `FirstOf`, and the
collected elements of a slice (whose count must agree) may differ. -/
def CallSim : Call → Call → Prop
  | .fieldsSeq fields idx _ loc, .fieldsSeq fields2 idx2 _ loc2 =>
      fields = fields2 ∧ idx = idx2 ∧ loc = loc2
  | .fieldsFirst fields idx _ _ loc, .fieldsFirst fields2 idx2 _ _ loc2 =>
      fields = fields2 ∧ idx = idx2 ∧ loc = loc2
  | .sliceLoop inner delim mn vals loc, .sliceLoop inner2 delim2 mn2 vals2 loc2 =>
      inner = inner2 ∧ delim = delim2 ∧ mn = mn2 ∧
        vals.length = vals2.length ∧ loc = loc2
  | c, c2 => c = c2

/-- The fields carried directly by a pending computation have no `set`
callbacks. -/
def callHookFree : Call → Prop
  | .fieldStep f _ => f.setHook = none
  | .fieldsSeq fields _ _ _ => ∀ f ∈ fields, f.setHook = none
  | .fieldsFirst fields _ _ _ _ => ∀ f ∈ fields, f.setHook = none
  | _ => True

/-- Soundness of a completed packrat entry: some reference-engine run of
the same node at the keyed offset, from no ancestors, returns exactly the
recorded new offset. -/
def Sound (g : List PNode) (names : Nat → String) (opts : POptions)
    (str : ByteStr) (k : Nat × Nat) (w : PVal) : Prop :=
  ∃ f0 err0 v0 e0,
    refRun g names opts str f0 [] (.node k.1 k.2) err0 = .ok w.newLoc v0 e0

/-- Invariant of the packrat-enabled run relative to the reference
ancestor stack: no recursion was detected, every entry is at recursion
level zero, completed entries are sound, and pending probes belong to
computations still in progress. -/
def StON (g : List PNode) (names : Nat → String) (opts : POptions)
    (str : ByteStr) (s : PState) (anc : List (Nat × Nat)) : Prop :=
  s.recursiveLocations = [] ∧
  ∀ k w, pkLookup s.packrat k = some w →
    w.recursionLevel = 0 ∧
    (w.parsed = true → Sound g names opts str k w) ∧
    (w.parsed = false → k ∈ anc)

/-- Fuel lemma for `lrGrow`: with every step result bounded by the input
length and the seed bounded by the input length, the loop stops before
the fuel runs out.  The measure is `len + 2` for a failed seed and
`len + 1 - seed` once the seed is a position. -/
theorem lrGrow_fuel (step : Nat → Int) (len : Nat)
    (hstep : ∀ k, step k ≤ (len : Int)) :
    ∀ fuel k seed, seed ≤ (len : Int) →
      (if seed < 0 then len + 2 else len + 1 - seed.toNat) ≤ fuel →
      (lrGrow step fuel k seed).isSome := by
  intro fuel
  induction fuel with
  | zero =>
    intro k seed hs hf
    split_ifs at hf <;> omega
  | succ f ih =>
    intro k seed hs hf
    unfold lrGrow
    dsimp only
    split_ifs with h1 h2
    · simp
    · simp
    · refine ih (k + 1) (step k) (hstep k) ?_
      have hk := hstep k
      split_ifs at hf ⊢ <;> omega

/-- C5: for every left-recursive rule and every finite input the iterative
seed-growing loop of `parseContext.parse` terminates.  `step k` is the
result of the `k`-th re-invocation of `node.parse`; every parse result is
bounded by the input length, and under that bound fuel `len + 2`
suffices: each iteration either fails (keeping the seed), stops because
the new offset does not strictly exceed a non-negative seed, or strictly
advances the seed, which cannot exceed `len`. -/
theorem lr_seed_loop_terminates (step : Nat → Int) (len : Nat) (seed : Int)
    (hstep : ∀ k, step k ≤ (len : Int)) (hseed : seed ≤ (len : Int)) :
    (lrGrow step (len + 2) 0 seed).isSome := by
  refine lrGrow_fuel step len hstep (len + 2) 0 seed hseed ?_
  split_ifs <;> omega

/-- Witness for `lr_seed_loop_terminates` at a concrete growing step
function. -/
theorem lr_seed_loop_terminates_witness :
    (lrGrow (fun k => if k < 3 then ((k : Int) + 1) else -1) 12 0 (-1)).isSome :=
  lr_seed_loop_terminates (fun k => if k < 3 then ((k : Int) + 1) else -1) 10
    (-1) (fun k => by dsimp only; split_ifs <;> omega) (by norm_num)

/-- C1 (code bug): integer literal overflow is not always reported as a
parse failure.  The decimal wrap-around check of `parseUint64` executes
`return 0, location` (success at the current position with value 0), and
the sign-bit check of `parseInt64` likewise returns the location after
the optional sign — in both cases with the error record set to "Integer
overflow" but a non-negative new offset, where the specification (and
every other overflow branch of the same functions) requires `-1`. -/
theorem parseInt64_overflow_returns_success :
    parseUint64 (bytes "20000000000000000000") 0 64 ⟨0, ""⟩ =
        (0, 19, ⟨19, "Integer overflow"⟩) ∧
      parseInt64 (bytes "9223372036854775808") 0 64 ⟨0, ""⟩ =
        (0, 0, ⟨0, "Integer overflow"⟩) ∧
      parseInt64 (bytes "-9223372036854775809") 0 64 ⟨0, ""⟩ =
        (0, 1, ⟨1, "Integer overflow"⟩) := by
  refine ⟨?_, ?_, ?_⟩ <;> rfl

/-- C2 (code bug): the three-octal-digit escape is never accepted.  The
guard of the octal branch compares the selector byte (at least 48, the
code of the digit 0) with the bare integer 3 instead of the byte code 51
of the digit 3, so the branch is unreachable and `\101` — which the
grammar comment of `parseUnicodeValue` itself documents as
`octal_byte_value` — fails with "Invalid escaped char", both standalone
and inside an interpreted string. -/
theorem parseUnicodeValue_octal_rejected :
    parseUnicodeValue (bytes "\\101") 0 ⟨0, ""⟩ =
        (0, -1, ⟨1, "Invalid escaped char"⟩) ∧
      parseString (bytes "\"\\101\"") 0 ⟨0, ""⟩ =
        ([], -1, ⟨2, "Invalid escaped char"⟩) ∧
      (∀ b : Nat, 48 ≤ b → ¬ b < 3) := by
  exact ⟨rfl, rfl, fun b hb => by omega⟩

/-- C8 (code bug): `SkipTeXComment` does not skip `%` comments.  Despite
its doc comment (`Skip TeX style comment: "% .... \n"`), the source
passes the opener `";"`, so a `%` comment is left in place while a `;`
comment is skipped — `SkipTeXComment` coincides with
`SkipLispComment`. -/
theorem skipTeXComment_skips_semicolon_not_percent :
    SkipTeXComment (bytes "% note\nx") 0 = 0 ∧
      SkipTeXComment (bytes "; note\nx") 0 = 7 ∧
      (∀ str loc, SkipTeXComment str loc = SkipLispComment str loc) := by
  exact ⟨rfl, rfl, fun _ _ => rfl⟩

/-- C9: calling `Parse` with a result argument whose dynamic type is not
a pointer returns location `-1` and a non-nil error; the answer does not
depend on the grammar, the input, the options or the fuel, so neither
compilation nor parsing is attempted. -/
theorem parse_non_pointer_rejected (compiled : Option (List PNode × Nat))
    (names : Nat → String) (lrMap : Nat → Int) (params : Option POptions)
    (str : ByteStr) (fuel : Nat) :
    Parse false compiled names lrMap params str fuel =
      .res (-1) (some "Invalid argument for Parse: waiting for pointer") := rfl

/-- C6: if an iteration of a repetition's inner parser succeeds without
advancing the offset, `sliceParser.ParseValue` panics ("Invalid grammar:
0-length member of ZeroOrMore"), aborting the entire parse as a grammar
defect: the abort is a distinct outcome, not a recoverable parse failure,
and the loop does not continue. -/
theorem slice_zero_advance_aborts (g : List PNode) (names : Nat → String)
    (lrMap : Nat → Int) (opts : POptions) (str : ByteStr) (fuel : Nat)
    (inner : Nat) (delim : ByteStr) (min : Nat) (vals : List GoVal)
    (loc : Nat) (err : PError) (s : PState) (nl : Int) (v : GoVal)
    (e : PError) (s2 : PState)
    (hinner : run g names lrMap opts str fuel (.parse inner loc) err s =
      .ok nl v e s2)
    (h0 : 0 ≤ nl) (hle : nl ≤ (loc : Int)) :
    run g names lrMap opts str (fuel + 1) (.sliceLoop inner delim min vals loc)
        err s =
      .bug "Invalid grammar: 0-length member of ZeroOrMore" := by
  simp only [run]
  rw [hinner]
  simp only []
  rw [if_neg (by omega), if_pos hle]

/-- Witness for `slice_zero_advance_aborts`: a repetition over the empty
literal on empty input. -/
theorem slice_zero_advance_aborts_witness :
    run [.lit [], .slice 0 [] 0] (fun _ => "p") (fun _ => 0) ⟨none, false⟩ []
        6 (.sliceLoop 0 [] 0 [] 0) ⟨0, ""⟩ ⟨[], []⟩ =
      .bug "Invalid grammar: 0-length member of ZeroOrMore" :=
  slice_zero_advance_aborts [.lit [], .slice 0 [] 0] (fun _ => "p")
    (fun _ => 0) ⟨none, false⟩ [] 5 0 [] 0 [] 0 ⟨0, ""⟩ ⟨[], []⟩ 0 (.vstr [])
    ⟨0, ""⟩ ⟨[], []⟩ rfl (by omega) (by omega)

/-- C3 (counterexample): two FirstOf branches failing at the same
offset.  The branch literals `ab` and `ax` both fail at offset 0 on the
input `aq`; the surfaced message is that of the first branch
(`Waiting for 'ab'`), not of the last one (`Waiting for 'ax'`) as the
claim states. -/
theorem firstOf_tie_returns_first_not_last :
    (run [.lit (bytes "ab"), .lit (bytes "ax"),
        .firstOf [⟨"A", false, 0, 0, none⟩, ⟨"B", false, 0, 1, none⟩]]
      (fun _ => "p") (fun _ => 0) ⟨none, false⟩ (bytes "aq") 50
      (.parse 2 0) ⟨0, ""⟩ ⟨[], []⟩ =
      .ok (-1) (.vstruct "" [.vstr [], .vstr []]) ⟨0, "Waiting for 'ab'"⟩
        ⟨[], []⟩) ∧
    "Waiting for 'ab'" ≠ "Waiting for 'ax'" := by
  exact ⟨rfl, by decide⟩


/-- C3 (amended): when every branch of a FirstOf fails, the surfaced
error is the branch failure with the greatest error offset, but when two
or more failures share that greatest offset the error of the FIRST such
branch encountered is returned, not the last: the fold of
`firstOfParser.ParseValue` (`firstOfPick`) replaces the best failure only
on a strictly greater offset.  Formally, the candidate list (the initial
sentinel at `location - 1` followed by the branch errors in field order)
splits into a prefix of strictly smaller offsets, the selected error, and
a remainder, and the selected error attains the maximum offset. -/
theorem firstOf_surfaces_first_greatest_error (init : PError)
    (errs : List PError) :
    ∃ pre post,
      init :: errs = pre ++ List.foldl firstOfPick init errs :: post ∧
      (∀ e ∈ init :: errs, e.loc ≤ (List.foldl firstOfPick init errs).loc) ∧
      (∀ e ∈ pre, e.loc < (List.foldl firstOfPick init errs).loc) := by
  induction errs generalizing init with
  | nil => exact ⟨[], [], rfl, by simp, by simp⟩
  | cons e rest ih =>
    have hfold : List.foldl firstOfPick init (e :: rest)
        = List.foldl firstOfPick (firstOfPick init e) rest := rfl
    by_cases h : e.loc > init.loc
    · have hp : firstOfPick init e = e := by simp [firstOfPick, h]
      obtain ⟨pre, post, heq, hmax, hpre⟩ := ih e
      rw [hfold, hp]
      have hsel : e.loc ≤ (List.foldl firstOfPick e rest).loc :=
        hmax e (by simp)
      refine ⟨init :: pre, post, ?_, ?_, ?_⟩
      · simpa using heq
      · intro x hx
        rcases List.mem_cons.mp hx with hx | hx
        · subst hx; omega
        · exact hmax x (by rw [← heq] at *; exact hx)
      · intro x hx
        rcases List.mem_cons.mp hx with hx | hx
        · subst hx; omega
        · exact hpre x hx
    · have hp : firstOfPick init e = init := by
        simp only [firstOfPick, if_neg h]
      obtain ⟨pre, post, heq, hmax, hpre⟩ := ih init
      rw [hfold, hp]
      cases pre with
      | nil =>
        simp only [List.nil_append] at heq
        injection heq with h1 h2
        refine ⟨[], e :: rest, ?_, ?_, by simp⟩
        · rw [← h1]
          rfl
        · intro x hx
          rcases List.mem_cons.mp hx with hx | hx
          · subst hx; rw [← h1]
          rcases List.mem_cons.mp hx with hx | hx
          · subst hx; rw [← h1]; omega
          · exact hmax x (List.mem_cons_of_mem _ hx)
      | cons y pre2 =>
        rw [List.cons_append] at heq
        injection heq with h1 h2
        have hinit : init.loc < (List.foldl firstOfPick init rest).loc := by
          have := hpre y (by simp)
          rw [← h1] at this
          exact this
        refine ⟨init :: e :: pre2, post, ?_, ?_, ?_⟩
        · rw [List.cons_append, List.cons_append, ← h2]
        · intro x hx
          rcases List.mem_cons.mp hx with hx | hx
          · subst hx; omega
          rcases List.mem_cons.mp hx with hx | hx
          · subst hx; omega
          · exact hmax x (List.mem_cons_of_mem _ hx)
        · intro x hx
          rcases List.mem_cons.mp hx with hx | hx
          · subst hx; omega
          rcases List.mem_cons.mp hx with hx | hx
          · subst hx; omega
          · exact hpre x (List.mem_cons_of_mem _ hx)

/-- Helper for the unterminated-comment claim: when no closer occurs in
the scan range `[loc + |opener|, |str| - |closer|)`, the scan falls off
the end and `SkipMultilineComment` returns `loc` unchanged; with a
nonempty opener, fuel `|str| + 2 - loc` suffices even for nested
probing, because every nested comment start lies strictly deeper in the
input. -/
theorem skipMulti_closer_out_of_scan (str opener closer : ByteStr)
    (recursive : Bool) (hop : 1 ≤ opener.length) :
    ∀ fuel loc, strAt str loc opener = true →
      (∀ j, loc + opener.length ≤ j → j < str.length - closer.length →
        strAt str j closer = false) →
      str.length + 2 ≤ fuel + loc →
      SkipMultilineComment fuel str loc opener closer recursive = some loc := by
  intro fuel
  induction fuel using Nat.strong_induction_on with
  | _ fuel ih =>
    intro loc hstart hnone hfuel
    have hlt : loc + opener.length ≤ str.length := by
      have := hstart
      unfold strAt at this
      simp only [Bool.and_eq_true, decide_eq_true_eq] at this
      exact this.1
    rw [SkipMultilineComment, if_pos hstart]
    have scan : ∀ d i, loc + opener.length ≤ i →
        str.length - closer.length ≤ i + d →
        smcScan fuel str loc opener closer recursive i = some loc := by
      intro d
      induction d with
      | zero =>
        intro i hi hd
        rw [smcScan.eq_def, if_neg (by omega)]
      | succ d ihd =>
        intro i hi hd
        rw [smcScan.eq_def]
        by_cases hrange : i < str.length - closer.length
        · rw [if_pos hrange]
          rw [hnone i hi hrange]
          simp only [Bool.false_eq_true, if_false]
          by_cases hn : (recursive && strAt str i opener) = true
          · rw [if_pos hn]
            have hstart2 : strAt str i opener = true := by
              have h2 := hn
              simp only [Bool.and_eq_true] at h2
              exact h2.2
            rcases fuel with _ | f
            · omega
            · have hinner : SkipMultilineComment f str i opener closer
                  recursive = some i := by
                refine ih f (by omega) i hstart2 ?_ (by omega)
                intro j hj1 hj2
                exact hnone j (by omega) hj2
              dsimp only
              rw [hinner]
              simp
          · rw [if_neg hn]
            exact ihd (i + 1) (by omega) (by omega)
        · rw [if_neg hrange]
    exact scan str.length (loc + opener.length) le_rfl (by omega)


/-- C10: when a multiline comment's closing token ends exactly at the end
of the input (and no earlier closer occurs in the scanned range), the
scan loop `for i := loc + len(begin); i < len(str) - len(end); i++` stops
before the closer's position, so `SkipMultilineComment` returns the
original offset unchanged and the comment is not skipped. -/
theorem multiline_comment_closer_at_eof (fuel : Nat)
    (str opener closer : ByteStr) (loc : Nat) (recursive : Bool)
    (hop : 1 ≤ opener.length)
    (hstart : strAt str loc opener = true)
    (hclose : strAt str (str.length - closer.length) closer = true)
    (hnone : ∀ i, loc + opener.length ≤ i → i < str.length - closer.length →
      strAt str i closer = false)
    (hfuel : str.length + 2 ≤ fuel + loc) :
    SkipMultilineComment fuel str loc opener closer recursive = some loc :=
  skipMulti_closer_out_of_scan str opener closer recursive hop fuel loc
    hstart hnone hfuel


/-- Witness for `multiline_comment_closer_at_eof`: the C comment `/*a*/`
with nothing after the closer is not skipped. -/
theorem multiline_comment_closer_at_eof_witness :
    SkipMultilineComment 10 (bytes "/*a*/") 0 (bytes "/*") (bytes "*/")
        false = some 0 :=
  multiline_comment_closer_at_eof 10 (bytes "/*a*/") (bytes "/*")
    (bytes "*/") 0 false (by decide) (by decide) (by decide)
    (fun i h1 h2 => by
      have hi : i = 2 := by simp [bytes] at h1 h2; omega
      subst hi; decide)
    (by decide)

/-- Whitespace skipping never moves the offset backwards (append.go `skipWS`). -/
lemma skipWS_ge (opts : POptions) (str : ByteStr) (loc : Nat) :
    loc ≤ skipWS opts str loc := by
  cases h : opts.skipWhite <;> simp only [skipWS, h]
  · exact Nat.le_refl _
  · split <;> omega

/-- The loop epilogue of `parseUint64` returns either the current location or a failure. -/
lemma finishUint_loc (size : Nat) (err : PError) (loc res : Nat) :
    (finishUint size err loc res).2.1 = (loc : Int) ∨
      (finishUint size err loc res).2.1 = -1 := by
  unfold finishUint; split <;> simp

/-- The hexadecimal loop never returns a position before its starting offset. -/
lemma hexLoop_mono (str : ByteStr) (size : Nat) (err : PError) :
    ∀ cnt loc res, 0 ≤ (hexLoop str size err cnt loc res).2.1 →
      (loc : Int) ≤ (hexLoop str size err cnt loc res).2.1 := by
  intro cnt
  induction cnt with
  | zero =>
    intro loc res
    rcases finishUint_loc size err loc res with h | h <;>
      simp only [hexLoop, h] <;> omega
  | succ n ih =>
    intro loc res
    simp only [hexLoop]
    split_ifs with h1 h2 h3 h4 h5
    · simp
    · intro h; have := ih (loc + 1) _ h; omega
    · intro h; have := ih (loc + 1) _ h; omega
    · intro h; have := ih (loc + 1) _ h; omega
    · rcases finishUint_loc size err loc res with h | h <;> simp only [h] <;> omega
    · rcases finishUint_loc size err loc res with h | h <;> simp only [h] <;> omega

/-- The octal loop never returns a position before its starting offset. -/
lemma octLoop_mono (str : ByteStr) (size : Nat) (err : PError) :
    ∀ cnt loc res, 0 ≤ (octLoop str size err cnt loc res).2.1 →
      (loc : Int) ≤ (octLoop str size err cnt loc res).2.1 := by
  intro cnt
  induction cnt with
  | zero =>
    intro loc res
    rcases finishUint_loc size err loc res with h | h <;>
      simp only [octLoop, h] <;> omega
  | succ n ih =>
    intro loc res
    simp only [octLoop]
    split_ifs with h1 h2 h3
    · simp
    · intro h; have := ih (loc + 1) _ h; omega
    · rcases finishUint_loc size err loc res with h | h <;> simp only [h] <;> omega
    · rcases finishUint_loc size err loc res with h | h <;> simp only [h] <;> omega

/-- The decimal loop never returns a position before its starting offset. -/
lemma decLoop_mono (str : ByteStr) (size : Nat) (err : PError) :
    ∀ cnt loc res, 0 ≤ (decLoop str size err cnt loc res).2.1 →
      (loc : Int) ≤ (decLoop str size err cnt loc res).2.1 := by
  intro cnt
  induction cnt with
  | zero =>
    intro loc res
    rcases finishUint_loc size err loc res with h | h <;>
      simp only [decLoop, h] <;> omega
  | succ n ih =>
    intro loc res
    simp only [decLoop]
    split_ifs with h1 h2 h3 h4
    · simp
    · simp
    · intro h; have := ih (loc + 1) _ h; omega
    · rcases finishUint_loc size err loc res with h | h <;> simp only [h] <;> omega
    · rcases finishUint_loc size err loc res with h | h <;> simp only [h] <;> omega

/-- A successful `parseUint64` never moves the offset backwards. -/
lemma parseUint64_mono (str : ByteStr) (location size : Nat) (err : PError) :
    0 ≤ (parseUint64 str location size err).2.1 →
      (location : Int) ≤ (parseUint64 str location size err).2.1 := by
  unfold parseUint64
  dsimp only
  split_ifs with h1 h2 h3 h4 h5
  · simp
  · simp
  · intro h; have := hexLoop_mono str size err str.length (location + 2) 0 h; omega
  · intro h; have := octLoop_mono str size err str.length location 0 h; omega
  · intro h; have := decLoop_mono str size err str.length location 0 h; omega
  · simp

/-- A successful `parseInt64` never moves the offset backwards. -/
lemma parseInt64_mono (str : ByteStr) (location size : Nat) (err : PError) :
    0 ≤ (parseInt64 str location size err).2.1 →
      (location : Int) ≤ (parseInt64 str location size err).2.1 := by
  unfold parseInt64
  dsimp only
  by_cases h1 : location ≥ str.length
  · simp [h1]
  rw [if_neg h1]
  by_cases hneg : str.getD location 0 = 45
  · have hm := parseUint64_mono str (location + 1) size err
    rcases hu : parseUint64 str (location + 1) size err with ⟨v, l, e⟩
    rw [hu] at hm
    dsimp only at hm
    simp only [if_pos hneg, hu]
    (try dsimp only)
    split_ifs with hl hov <;> intro h <;> (try dsimp only at h ⊢) <;>
      (try have := hm (by omega)) <;> omega
  · have hm := parseUint64_mono str location size err
    rcases hu : parseUint64 str location size err with ⟨v, l, e⟩
    rw [hu] at hm
    dsimp only at hm
    simp only [if_neg hneg, hu]
    (try dsimp only)
    split_ifs with hl hov <;> intro h <;> (try dsimp only at h ⊢) <;>
      (try have := hm (by omega)) <;> omega

/-- The raw-string loop never moves the offset backwards. -/
lemma rawStrLoop_mono (str : ByteStr) (err : PError) :
    ∀ cnt buf loc, 0 ≤ (rawStrLoop str err cnt buf loc).2.1 →
      (loc : Int) ≤ (rawStrLoop str err cnt buf loc).2.1 := by
  intro cnt
  induction cnt with
  | zero => intro buf loc; simp [rawStrLoop]
  | succ n ih =>
    intro buf loc
    simp only [rawStrLoop]
    split_ifs with h1 h2 h3
    · simp
    · intro h; have := ih buf (loc + 1) h; omega
    · intro h; have := ih (buf ++ [str.getD loc 0]) (loc + 1) h; omega
    · simp

/-- The interpreted-string loop never moves the offset backwards. -/
lemma interpStrLoop_mono (str : ByteStr) :
    ∀ cnt err buf loc, 0 ≤ (interpStrLoop str cnt err buf loc).2.1 →
      (loc : Int) ≤ (interpStrLoop str cnt err buf loc).2.1 := by
  intro cnt
  induction cnt with
  | zero => intro err buf loc; simp [interpStrLoop]
  | succ n ih =>
    intro err buf loc
    have hp := parseUnicodeValue_pos str loc err
    rcases hu : parseUnicodeValue str loc err with ⟨r, l, e2⟩
    rw [hu] at hp
    dsimp only at hp
    simp only [interpStrLoop, hu]
    (try dsimp only)
    split_ifs with h1 h2 h3 h4
    · simp
    · intro h; dsimp only at h; omega
    · intro h
      have hr := ih e2 (buf ++ [r.toNat]) l.toNat h
      have hp2 := hp (by omega)
      omega
    · intro h
      have hr := ih e2 (buf ++ utf8EncodeRune r) l.toNat h
      have hp2 := hp (by omega)
      omega
    · simp

/-- A successful `parseString` never moves the offset backwards. -/
lemma parseString_mono (str : ByteStr) (location : Nat) (err : PError) :
    0 ≤ (parseString str location err).2.1 →
      (location : Int) ≤ (parseString str location err).2.1 := by
  unfold parseString
  split_ifs with h1 h2
  · intro h
    have := rawStrLoop_mono str err (str.length + 1) [] (location + 1) h
    omega
  · intro h
    have := interpStrLoop_mono str (str.length + 1) err [] (location + 1) h
    omega
  · simp

/-- Replacing the entry of key `k` leaves lookups of other keys unchanged. -/
lemma pkLookup_map_ne (k k' : Nat × Nat) (v : PVal) (h : k' ≠ k) :
    ∀ t : List ((Nat × Nat) × PVal),
      pkLookup (t.map (fun e => if e.1 = k then (k, v) else e)) k' =
        pkLookup t k' := by
  intro t
  induction t with
  | nil => rfl
  | cons a t ih =>
    by_cases ha : a.1 = k
    · have h1 : ¬ ((k, v).1 = k') := fun hh => h hh.symm
      have h2 : ¬ (a.1 = k') := fun hh => h (by rw [← hh, ha])
      simpa [pkLookup, List.find?_cons, if_pos ha, h1, h2] using ih
    · by_cases hk : a.1 = k'
      · have hd : (decide (a.1 = k')) = true := by simp [hk]
        simp [pkLookup, List.find?_cons, if_neg ha, hd]
      · simpa [pkLookup, List.find?_cons, if_neg ha, hk] using ih

/-- Replacing the entry of key `k` makes lookup of `k` return the new value. -/
lemma pkLookup_map_self (k : Nat × Nat) (v : PVal) :
    ∀ t : List ((Nat × Nat) × PVal),
      (t.find? (fun e => e.1 = k)).isSome →
      pkLookup (t.map (fun e => if e.1 = k then (k, v) else e)) k = some v := by
  intro t
  induction t with
  | nil => intro h; simp [List.find?] at h
  | cons a t ih =>
    intro h
    by_cases ha : a.1 = k
    · simp [pkLookup, List.find?_cons, ha]
    · have h' : (t.find? (fun e => e.1 = k)).isSome := by
        simpa [List.find?_cons, ha] using h
      simpa [pkLookup, List.find?_cons, if_neg ha, ha] using ih h'

/-- Characterisation of lookup after a map write. -/
lemma pkLookup_pkSet (s : List ((Nat × Nat) × PVal)) (k k' : Nat × Nat)
    (v : PVal) :
    pkLookup (pkSet s k v) k' = if k' = k then some v else pkLookup s k' := by
  by_cases h1 : (s.find? (fun e => e.1 = k)).isSome
  · rw [pkSet, if_pos h1]
    by_cases h2 : k' = k
    · rw [if_pos h2, h2]
      exact pkLookup_map_self k v s h1
    · rw [if_neg h2]
      exact pkLookup_map_ne k k' v h2 s
  · rw [pkSet, if_neg h1]
    by_cases h2 : k' = k
    · rw [if_pos h2, h2]
      simp [pkLookup, List.find?_cons]
    · rw [if_neg h2]
      have hne : ¬ ((k, v).1 = k') := fun hh => h2 hh.symm
      simp [pkLookup, List.find?_cons, hne]

/-- Characterisation of lookup after a map delete. -/
lemma pkLookup_pkDelete (s : List ((Nat × Nat) × PVal)) (k k' : Nat × Nat) :
    pkLookup (pkDelete s k) k' = if k' = k then none else pkLookup s k' := by
  induction s with
  | nil => simp [pkDelete, pkLookup, List.find?]
  | cons a t ih =>
    simp only [pkDelete, List.filter_cons] at ih ⊢
    by_cases ha : a.1 = k
    · rw [if_neg (by simp [ha])]
      rw [ih]
      by_cases hk : k' = k
      · simp [hk]
      · rw [if_neg hk, if_neg hk]
        have hne : (a.1 = k') = False := by
          refine eq_false fun hh => hk ?_
          rw [← hh, ha]
        simp [pkLookup, List.find?_cons, hne]
    · rw [if_pos (by simp [ha])]
      by_cases hk : a.1 = k'
      · have hne : ¬ k' = k := fun hh => ha (hk.trans hh)
        rw [if_neg hne]
        simp [pkLookup, List.find?_cons, hk]
      · simp only [pkLookup, List.find?_cons, hk, decide_False]
        simpa [pkLookup] using ih
/-- A map write preserves the table invariant when the new entry satisfies it. -/
lemma cacheOK_set (pk : List ((Nat × Nat) × PVal)) (k : Nat × Nat) (v : PVal)
    (h : cacheOK pk) (hv : 0 ≤ v.newLoc → ((k.2 : Nat) : Int) ≤ v.newLoc) :
    cacheOK (pkSet pk k v) := by
  intro k' v' hl hnn
  rw [pkLookup_pkSet] at hl
  by_cases hk : k' = k
  · rw [if_pos hk] at hl
    injection hl with hlv
    subst hlv
    subst hk
    exact hv hnn
  · rw [if_neg hk] at hl
    exact h k' v' hl hnn

/-- A map delete preserves the table invariant. -/
lemma cacheOK_delete (pk : List ((Nat × Nat) × PVal)) (k : Nat × Nat)
    (h : cacheOK pk) : cacheOK (pkDelete pk k) := by
  intro k' v' hl hnn
  rw [pkLookup_pkDelete] at hl
  by_cases hk : k' = k
  · rw [if_pos hk] at hl
    cases hl
  · rw [if_neg hk] at hl
    exact h k' v' hl hnn

/-- Master invariant of the engine: any computation that returns a
non-negative offset returns one at least as large as its starting offset,
and the packrat-table invariant `cacheOK` is preserved.  Induction on the
fuel, with a case for every pending-computation kind. -/
theorem run_mono (g : List PNode) (names : Nat → String) (lrMap : Nat → Int)
    (opts : POptions) (str : ByteStr) :
    ∀ fuel c err s l v e s2,
      run g names lrMap opts str fuel c err s = .ok l v e s2 →
      cacheOK s.packrat →
      (0 ≤ l → ((callLoc c : Nat) : Int) ≤ l) ∧ cacheOK s2.packrat := by
  intro fuel
  induction fuel with
  | zero =>
    intro c err s l v e s2 h
    simp [run] at h
  | succ fuel ih =>
    intro c err s l v e s2 h hs
    cases c with
    | parse id loc0 =>
      simp only [run] at h
      simp only [callLoc]
      have hws := skipWS_ge opts str loc0
      by_cases hsc : ¬ opts.packratEnabled = true ∧ 0 < lrMap id
      · rw [if_pos hsc] at h
        have hstep := ih _ _ _ _ _ _ _ h hs
        simp only [callLoc] at hstep
        refine ⟨fun hl => ?_, hstep.2⟩
        have := hstep.1 hl
        omega
      · rw [if_neg hsc] at h
        rcases hlk : pkLookup s.packrat (id, skipWS opts str loc0) with _ | cache
        · -- cache miss
          rw [hlk] at h
          dsimp only at h
          have hs1 : cacheOK (pkSet s.packrat (id, skipWS opts str loc0)
              ⟨false, 0, ((skipWS opts str loc0 : Nat) : Int), none, "", 0⟩) := by
            apply cacheOK_set _ _ _ hs
            intro _
            simp
          rcases hr : run g names lrMap opts str fuel
              (.node id (skipWS opts str loc0)) err
              { s with packrat := (pkSet s.packrat (id, skipWS opts str loc0)
                  ⟨false, 0, ((skipWS opts str loc0 : Nat) : Int), none, "", 0⟩) }
            with ⟨l1, v1, e1, s3⟩ | m | _ <;> rw [hr] at h
          · have hstep := ih _ _ _ _ _ _ _ hr hs1
            simp only [callLoc] at hstep
            dsimp only at h
            rcases hlk2 : pkLookup s3.packrat (id, skipWS opts str loc0)
              with _ | cache2 <;> rw [hlk2] at h <;>
              simp only [Option.getD_some, Option.getD_none] at h
            · -- entry no longer present: completion reads the default
              rw [if_pos (show dfltPV.recursionLevel = 0 from rfl)] at h
              by_cases hc :
                  s3.recursiveLocations.contains (skipWS opts str loc0) = true
              · have hcne : ¬ ¬ (s3.recursiveLocations.contains
                    (skipWS opts str loc0) = true) := fun hcon => hcon hc
                rw [if_neg hcne] at h
                cases h
                refine ⟨fun hl => ?_, ?_⟩
                · have := hstep.1 hl
                  omega
                · dsimp only
                  exact cacheOK_delete _ _ hstep.2
              · rw [if_pos hc] at h
                by_cases hpe : opts.packratEnabled = true
                · have hpne : ¬ ¬ (opts.packratEnabled = true) :=
                    fun hcon => hcon hpe
                  rw [if_neg hpne] at h
                  cases h
                  refine ⟨fun hl => ?_, ?_⟩
                  · have := hstep.1 hl
                    omega
                  · dsimp only
                    apply cacheOK_set _ _ _ hstep.2
                    intro hnn
                    dsimp only at hnn ⊢
                    have := hstep.1 hnn
                    omega
                · rw [if_pos hpe] at h
                  cases h
                  refine ⟨fun hl => ?_, ?_⟩
                  · have := hstep.1 hl
                    omega
                  · dsimp only
                    exact cacheOK_delete _ _ hstep.2
            · -- entry present after the attempt
              by_cases hrz : cache2.recursionLevel = 0
              · rw [if_pos hrz] at h
                by_cases hc :
                    s3.recursiveLocations.contains (skipWS opts str loc0) = true
                · have hcne : ¬ ¬ (s3.recursiveLocations.contains
                      (skipWS opts str loc0) = true) := fun hcon => hcon hc
                  rw [if_neg hcne] at h
                  cases h
                  refine ⟨fun hl => ?_, ?_⟩
                  · have := hstep.1 hl
                    omega
                  · dsimp only
                    exact cacheOK_delete _ _ hstep.2
                · rw [if_pos hc] at h
                  by_cases hpe : opts.packratEnabled = true
                  · have hpne : ¬ ¬ (opts.packratEnabled = true) :=
                      fun hcon => hcon hpe
                    rw [if_neg hpne] at h
                    cases h
                    refine ⟨fun hl => ?_, ?_⟩
                    · have := hstep.1 hl
                      omega
                    · dsimp only
                      apply cacheOK_set _ _ _ hstep.2
                      intro hnn
                      dsimp only at hnn ⊢
                      have := hstep.1 hnn
                      omega
                  · rw [if_pos hpe] at h
                    cases h
                    refine ⟨fun hl => ?_, ?_⟩
                    · have := hstep.1 hl
                      omega
                    · dsimp only
                      exact cacheOK_delete _ _ hstep.2
              · rw [if_neg hrz] at h
                have hs4 : cacheOK (pkSet s3.packrat (id, skipWS opts str loc0)
                    { cache2 with
                        newLoc := l1
                        msg := e1.msg
                        errLoc := e1.loc
                        value := if 0 ≤ l1 then some v1 else cache2.value
                        recursionLevel := 2 }) := by
                  apply cacheOK_set _ _ _ hstep.2
                  intro hnn
                  dsimp only at hnn ⊢
                  have := hstep.1 hnn
                  omega
                have hstep2 := ih _ _ _ _ _ _ _ h hs4
                simp only [callLoc] at hstep2
                refine ⟨fun hl => ?_, hstep2.2⟩
                have := hstep2.1 hl
                omega
          · cases h
          · cases h
        · -- cache hit
          rw [hlk] at h
          dsimp only at h
          have hcc := hs _ cache hlk
          dsimp only at hcc
          split_ifs at h <;> cases h
          · exact ⟨fun hl => by have := hcc hl; omega, hs⟩
          · exact ⟨fun hl => by omega, hs⟩
          · refine ⟨fun hl => by omega, ?_⟩
            dsimp only
            apply cacheOK_set _ _ _ hs
            intro hnn2
            dsimp only at hnn2 ⊢
            omega
          · exact ⟨fun hl => by have := hcc hl; omega, hs⟩
          · exact ⟨fun hl => by omega, hs⟩
    | node id loc =>
      simp only [callLoc]
      rcases hn : nodeAt g id with lit | _ | bits | bits | _ | _ | fields |
        fields | ⟨inner, delim, mn⟩ | ⟨inner, opt⟩
      · simp only [run, hn] at h
        split_ifs at h <;> cases h
        · exact ⟨fun hl => by omega, hs⟩
        · exact ⟨fun hl => by omega, hs⟩
      · simp only [run, hn] at h
        split_ifs at h <;> cases h <;> exact ⟨fun hl => by omega, hs⟩
      · rcases hu1 : parseUnicodeValue str (loc + 1) err with ⟨r1, l1, e1'⟩
        rcases hu2 : parseInt64 str loc bits err with ⟨r2, l2, e2'⟩
        have hp := parseUnicodeValue_pos str (loc + 1) err
        have hi := parseInt64_mono str loc bits err
        rw [hu1] at hp
        rw [hu2] at hi
        dsimp only at hp hi
        simp only [run, hn, hu1, hu2] at h
        split_ifs at h <;> cases h <;> refine ⟨fun hl => ?_, hs⟩ <;>
          first
            | omega
            | (have hx := hp (by omega); omega)
            | (have hx := hi (by omega); omega)
      · rcases hu2 : parseUint64 str loc bits err with ⟨r2, l2, e2'⟩
        have hi := parseUint64_mono str loc bits err
        rw [hu2] at hi
        dsimp only at hi
        simp only [run, hn, hu2] at h
        split_ifs at h <;> cases h <;> refine ⟨fun hl => ?_, hs⟩ <;>
          first
            | omega
            | (have hx := hi (by omega); omega)
      · rcases hu2 : parseString str loc err with ⟨r2, l2, e2'⟩
        have hi := parseString_mono str loc err
        rw [hu2] at hi
        dsimp only at hi
        simp only [run, hn, hu2] at h
        split_ifs at h <;> cases h <;> refine ⟨fun hl => ?_, hs⟩ <;>
          first
            | omega
            | (have hx := hi (by omega); omega)
      · simp only [run, hn] at h
        cases h
        exact ⟨fun hl => le_refl _, hs⟩
      · simp only [run, hn] at h
        have hstep := ih _ _ _ _ _ _ _ h hs
        simp only [callLoc] at hstep
        exact hstep
      · simp only [run, hn] at h
        have hstep := ih _ _ _ _ _ _ _ h hs
        simp only [callLoc] at hstep
        exact hstep
      · simp only [run, hn] at h
        have hstep := ih _ _ _ _ _ _ _ h hs
        simp only [callLoc] at hstep
        exact hstep
      · simp only [run, hn] at h
        rcases hr : run g names lrMap opts str fuel (.parse inner loc) err s
          with ⟨l1, v1, e1, s3⟩ | m | _ <;> rw [hr] at h
        · have hstep := ih _ _ _ _ _ _ _ hr hs
          simp only [callLoc] at hstep
          dsimp only at h
          split_ifs at h with hl1 hopt <;> cases h
          · exact ⟨fun _ => le_refl _, hstep.2⟩
          · exact ⟨fun hl => by omega, hstep.2⟩
          · exact ⟨fun hl => hstep.1 hl, hstep.2⟩
        · cases h
        · cases h
    | fieldStep f loc =>
      simp only [run] at h
      simp only [callLoc]
      rcases hr : run g names lrMap opts str fuel (.parse f.parse loc) err s
        with ⟨l1, v1, e1, s3⟩ | m | _ <;> rw [hr] at h
      · have hstep := ih _ _ _ _ _ _ _ hr hs
        simp only [callLoc] at hstep
        dsimp only at h
        split_ifs at h with hna h0 hfb hl1 hl2
        · cases h
          exact ⟨fun hl => by omega, hstep.2⟩
        · cases h
          exact ⟨fun _ => le_refl _, hstep.2⟩
        · cases h
          exact ⟨fun hl => by omega, hstep.2⟩
        · cases h
          exact ⟨fun _ => le_refl _, hstep.2⟩
        · cases h
          exact ⟨fun hl => by omega, hstep.2⟩
        · rcases hh : f.setHook with _ | hook <;> rw [hh] at h <;>
            dsimp only at h
          · cases h
            refine ⟨fun hl => ?_, hstep.2⟩
            have hw := skipWS_ge opts str l1.toNat
            have := hstep.1 (by omega)
            omega
          · rcases hhv : hook v1 with _ | m <;> rw [hhv] at h <;>
              dsimp only at h <;> cases h
            · refine ⟨fun hl => ?_, hstep.2⟩
              have hw := skipWS_ge opts str l1.toNat
              have := hstep.1 (by omega)
              omega
            · refine ⟨fun hl => ?_, hstep.2⟩
              have := hstep.1 (by omega)
              omega
      · cases h
      · cases h
    | fieldsSeq fields idx cur loc =>
      simp only [callLoc]
      rcases fields with _ | ⟨f, rest⟩
      · simp only [run] at h
        cases h
        exact ⟨fun _ => le_refl _, hs⟩
      · simp only [run] at h
        rcases hr : run g names lrMap opts str fuel (.fieldStep f loc) err s
          with ⟨l1, v1, e1, s3⟩ | m | _ <;> rw [hr] at h
        · have h1 := ih _ _ _ _ _ _ _ hr hs
          simp only [callLoc] at h1
          dsimp only at h
          split_ifs at h with ha hb <;>
            first
              | (cases h; exact ⟨fun hl => by omega, h1.2⟩)
              | (have h2 := ih _ _ _ _ _ _ _ h h1.2
                 simp only [callLoc] at h2
                 refine ⟨fun hl => ?_, h2.2⟩
                 have ha2 := h2.1 hl
                 have hb2 := h1.1 (by omega)
                 omega)
              | (have h2 := ih _ _ _ _ _ _ _ h.symm h1.2
                 simp only [callLoc] at h2
                 refine ⟨fun hl => ?_, h2.2⟩
                 have ha2 := h2.1 hl
                 have hb2 := h1.1 (by omega)
                 omega)
        · cases h
        · cases h
    | fieldsFirst fields idx cur maxErr loc =>
      simp only [callLoc]
      rcases fields with _ | ⟨f, rest⟩
      · simp only [run] at h
        cases h
        exact ⟨fun hl => by omega, hs⟩
      · simp only [run] at h
        rcases hr : run g names lrMap opts str fuel (.fieldStep f loc) err s
          with ⟨l1, v1, e1, s3⟩ | m | _ <;> rw [hr] at h
        · have h1 := ih _ _ _ _ _ _ _ hr hs
          simp only [callLoc] at h1
          dsimp only at h
          split_ifs at h with ha hb <;>
            first
              | (cases h; exact ⟨fun hl => h1.1 hl, h1.2⟩)
              | (have h2 := ih _ _ _ _ _ _ _ h h1.2
                 simp only [callLoc] at h2
                 exact ⟨fun hl => h2.1 hl, h2.2⟩)
              | (have h2 := ih _ _ _ _ _ _ _ h.symm h1.2
                 simp only [callLoc] at h2
                 exact ⟨fun hl => h2.1 hl, h2.2⟩)
        · cases h
        · cases h
    | sliceLoop inner delim mn vals loc =>
      simp only [callLoc]
      simp only [run] at h
      rcases hr : run g names lrMap opts str fuel (.parse inner loc) err s
        with ⟨nl, v1, e1, s3⟩ | m | _ <;> rw [hr] at h
      · have h1 := ih _ _ _ _ _ _ _ hr hs
        simp only [callLoc] at h1
        dsimp only at h
        split_ifs at h with hnl hmin hz hd hat
        · cases h
          exact ⟨fun _ => le_refl _, h1.2⟩
        · cases h
          exact ⟨fun hl => by omega, h1.2⟩
        · have h2 := by
            first
              | exact ih _ _ _ _ _ _ _ h h1.2
              | exact ih _ _ _ _ _ _ _ h.symm h1.2
          simp only [callLoc] at h2
          refine ⟨fun hl => ?_, h2.2⟩
          have ha2 := h2.1 hl
          have hw1 := skipWS_ge opts str nl.toNat
          have hw2 := skipWS_ge opts str (skipWS opts str nl.toNat + delim.length)
          omega
        · cases h
          refine ⟨fun hl => ?_, h1.2⟩
          have hw1 := skipWS_ge opts str nl.toNat
          omega
        · have h2 := by
            first
              | exact ih _ _ _ _ _ _ _ h h1.2
              | exact ih _ _ _ _ _ _ _ h.symm h1.2
          simp only [callLoc] at h2
          refine ⟨fun hl => ?_, h2.2⟩
          have ha2 := h2.1 hl
          omega
      · cases h
      · cases h
    | lrLoop id loc =>
      simp only [callLoc]
      simp only [run] at h
      have hs0 : cacheOK (pkSet s.packrat (id, loc)
          ⟨((pkLookup s.packrat (id, loc)).getD dfltPV).parsed, 2,
           ((pkLookup s.packrat (id, loc)).getD dfltPV).newLoc,
           ((pkLookup s.packrat (id, loc)).getD dfltPV).value,
           ((pkLookup s.packrat (id, loc)).getD dfltPV).msg,
           ((pkLookup s.packrat (id, loc)).getD dfltPV).errLoc⟩) := by
        apply cacheOK_set _ _ _ hs
        intro hnn
        rcases hlk : pkLookup s.packrat (id, loc) with _ | w <;> rw [hlk] at hnn
        · simp [dfltPV] at hnn
        · simp only [Option.getD_some] at hnn ⊢
          (try dsimp only at hnn ⊢)
          exact hs _ w hlk hnn
      rcases hr : run g names lrMap opts str fuel (.node id loc) err
          { s with packrat := (pkSet s.packrat (id, loc)
              ⟨((pkLookup s.packrat (id, loc)).getD dfltPV).parsed, 2,
               ((pkLookup s.packrat (id, loc)).getD dfltPV).newLoc,
               ((pkLookup s.packrat (id, loc)).getD dfltPV).value,
               ((pkLookup s.packrat (id, loc)).getD dfltPV).msg,
               ((pkLookup s.packrat (id, loc)).getD dfltPV).errLoc⟩) }
        with ⟨l1, v1, e1, s3⟩ | m | _ <;> rw [hr] at h
      · have h1 := ih _ _ _ _ _ _ _ hr hs0
        simp only [callLoc] at h1
        dsimp only at h
        rcases hlk2 : pkLookup s3.packrat (id, loc) with _ | cache <;>
          rw [hlk2] at h <;>
          simp only [Option.getD_some, Option.getD_none] at h
        · -- entry no longer present: the seed defaults
          by_cases hl1 : l1 < 0
          · rw [if_pos hl1] at h
            cases h
            refine ⟨fun hl => ?_, ?_⟩
            · simp [dfltPV] at hl
            · dsimp only
              apply cacheOK_set _ _ _ h1.2
              intro hnn
              simp [dfltPV] at hnn
          · rw [if_neg hl1] at h
            have hnb : ¬ (0 ≤ dfltPV.newLoc ∧ l1 ≤ dfltPV.newLoc) := by
              simp [dfltPV]
            rw [if_neg hnb] at h
            have hs4 : cacheOK (pkSet s3.packrat (id, loc)
                { dfltPV with newLoc := l1, value := some v1 }) := by
              apply cacheOK_set _ _ _ h1.2
              intro hnn
              dsimp only at hnn ⊢
              exact h1.1 hnn
            have h2 := ih _ _ _ _ _ _ _ h hs4
            simp only [callLoc] at h2
            exact ⟨fun hl => h2.1 hl, h2.2⟩
        · -- entry present
          by_cases hl1 : l1 < 0
          · rw [if_pos hl1] at h
            cases h
            refine ⟨fun hl => ?_, ?_⟩
            · have := h1.2 _ cache hlk2 hl
              dsimp only at this
              omega
            · dsimp only
              apply cacheOK_set _ _ _ h1.2
              intro hnn
              dsimp only at hnn ⊢
              have := h1.2 _ cache hlk2 hnn
              dsimp only at this
              omega
          · rw [if_neg hl1] at h
            by_cases hb : 0 ≤ cache.newLoc ∧ l1 ≤ cache.newLoc
            · rw [if_pos hb] at h
              cases h
              refine ⟨fun hl => ?_, ?_⟩
              · have := h1.2 _ cache hlk2 hb.1
                dsimp only at this
                omega
              · dsimp only
                apply cacheOK_set _ _ _ h1.2
                intro hnn
                dsimp only at hnn ⊢
                have := h1.2 _ cache hlk2 hb.1
                dsimp only at this
                omega
            · rw [if_neg hb] at h
              have hs4 : cacheOK (pkSet s3.packrat (id, loc)
                  { cache with newLoc := l1, value := some v1 }) := by
                apply cacheOK_set _ _ _ h1.2
                intro hnn
                dsimp only at hnn ⊢
                exact h1.1 hnn
              have h2 := ih _ _ _ _ _ _ _ h hs4
              simp only [callLoc] at h2
              exact ⟨fun hl => h2.1 hl, h2.2⟩
      · cases h
      · cases h

/-- C7: for every parser node and every starting offset, a successful
parse (non-negative returned offset) returns an offset no smaller than the
starting offset — from the public entry state and, more generally, from
any state satisfying the packrat-table invariant, for every
pending-computation kind (which covers each field step of a sequence, so
the offset is non-decreasing across sequence fields).  Moreover
optional-pointer failure returns exactly the starting offset, and both
lookahead field kinds (`FollowedBy` on child success, `NotAny` on child
failure) return exactly the starting offset. -/
theorem parse_offset_monotone (g : List PNode) (names : Nat → String)
    (lrMap : Nat → Int) (opts : POptions) (str : ByteStr) :
    (∀ fuel id loc err l v e s2,
        run g names lrMap opts str fuel (.parse id loc) err ⟨[], []⟩ =
          .ok l v e s2 →
        0 ≤ l → (loc : Int) ≤ l) ∧
    (∀ fuel c err s l v e s2,
        run g names lrMap opts str fuel c err s = .ok l v e s2 →
        cacheOK s.packrat → 0 ≤ l → ((callLoc c : Nat) : Int) ≤ l) ∧
    (∀ fuel id inner loc err s l v e s2,
        nodeAt g id = .ptr inner true →
        run g names lrMap opts str fuel (.parse inner loc) err s =
          .ok l v e s2 →
        l < 0 →
        run g names lrMap opts str (fuel + 1) (.node id loc) err s =
          .ok (loc : Int) (.vptr none) e s2) ∧
    (∀ fuel f loc err s l v e s2,
        f.flags &&& fieldFollowedBy ≠ 0 → f.flags &&& fieldNotAny = 0 →
        run g names lrMap opts str fuel (.parse f.parse loc) err s =
          .ok l v e s2 →
        0 ≤ l →
        run g names lrMap opts str (fuel + 1) (.fieldStep f loc) err s =
          .ok (loc : Int) v e s2) ∧
    (∀ fuel f loc err s l v e s2,
        f.flags &&& fieldNotAny ≠ 0 →
        run g names lrMap opts str fuel (.parse f.parse loc) err s =
          .ok l v e s2 →
        l < 0 →
        run g names lrMap opts str (fuel + 1) (.fieldStep f loc) err s =
          .ok (loc : Int) v e s2) := by
  refine ⟨?_, ?_, ?_, ?_, ?_⟩
  · intro fuel id loc err l v e s2 hrun hl
    have hempty : cacheOK (PState.mk [] []).packrat := by
      intro k w hlv
      simp [pkLookup, List.find?] at hlv
    have := (run_mono g names lrMap opts str fuel (.parse id loc) err
      ⟨[], []⟩ l v e s2 hrun hempty).1 hl
    simpa [callLoc] using this
  · intro fuel c err s l v e s2 hrun hsok hl
    exact (run_mono g names lrMap opts str fuel c err s l v e s2 hrun hsok).1 hl
  · intro fuel id inner loc err s l v e s2 hn hrun hl
    simp only [run, hn]
    rw [hrun]
    simp [hl]
  · intro fuel f loc err s l v e s2 hfb hna hrun hl
    simp only [run]
    rw [hrun]
    dsimp only
    rw [if_neg (fun hcon => hcon hna), if_pos hfb, if_neg (by omega : ¬ l < 0)]
  · intro fuel f loc err s l v e s2 hna hrun hl
    simp only [run]
    rw [hrun]
    dsimp only
    rw [if_pos hna, if_neg (by omega : ¬ 0 ≤ l)]

/-- Concrete instances of the offset-monotonicity theorem on the grammar
[lit "ab", lit "xy", ptr 1 optional] and input "ab". -/
theorem parse_offset_monotone_witness :
    ((0 : Int) ≤ 2) ∧
    (((5 : Nat) : Int) ≤ 5) ∧
    (run [PNode.lit (bytes "ab"), .lit (bytes "xy"), .ptr 1 true]
        (fun _ => "p") (fun _ => 0) ⟨none, false⟩ (bytes "ab") 4
        (.node 2 0) ⟨0, ""⟩ ⟨[], []⟩ =
      .ok 0 (.vptr none) ⟨0, "Waiting for 'xy'"⟩ ⟨[], []⟩) ∧
    (run [PNode.lit (bytes "ab"), .lit (bytes "xy"), .ptr 1 true]
        (fun _ => "p") (fun _ => 0) ⟨none, false⟩ (bytes "ab") 4
        (.fieldStep ⟨"F", false, 2, 0, none⟩ 0) ⟨0, ""⟩ ⟨[], []⟩ =
      .ok 0 (.vstr (bytes "ab")) ⟨0, ""⟩ ⟨[], []⟩) ∧
    (run [PNode.lit (bytes "ab"), .lit (bytes "xy"), .ptr 1 true]
        (fun _ => "p") (fun _ => 0) ⟨none, false⟩ (bytes "ab") 4
        (.fieldStep ⟨"N", false, 1, 1, none⟩ 0) ⟨0, ""⟩ ⟨[], []⟩ =
      .ok 0 (.vstr []) ⟨0, "Waiting for 'xy'"⟩ ⟨[], []⟩) := by
  refine ⟨?_, ?_, ?_, ?_, ?_⟩
  · exact (parse_offset_monotone [PNode.lit (bytes "ab"), .lit (bytes "xy"),
      .ptr 1 true] (fun _ => "p") (fun _ => 0) ⟨none, false⟩ (bytes "ab")).1
      4 0 0 ⟨0, ""⟩ 2 (.vstr (bytes "ab")) ⟨0, ""⟩ ⟨[], []⟩ rfl (by decide)
  · exact (parse_offset_monotone [PNode.lit (bytes "ab"), .lit (bytes "xy"),
      .ptr 1 true] (fun _ => "p") (fun _ => 0) ⟨none, false⟩ (bytes "ab")).2.1
      1 (.fieldsSeq [] 0 (.vstr []) 5) ⟨0, ""⟩ ⟨[], []⟩ 5 (.vstr []) ⟨0, ""⟩
      ⟨[], []⟩ rfl (by intro k w hlv; simp [pkLookup, List.find?] at hlv)
      (by decide)
  · exact (parse_offset_monotone [PNode.lit (bytes "ab"), .lit (bytes "xy"),
      .ptr 1 true] (fun _ => "p") (fun _ => 0) ⟨none, false⟩ (bytes "ab")).2.2.1
      3 2 1 0 ⟨0, ""⟩ ⟨[], []⟩ (-1) (.vstr []) ⟨0, "Waiting for 'xy'"⟩ ⟨[], []⟩
      rfl rfl (by decide)
  · exact (parse_offset_monotone [PNode.lit (bytes "ab"), .lit (bytes "xy"),
      .ptr 1 true] (fun _ => "p") (fun _ => 0) ⟨none, false⟩ (bytes "ab")).2.2.2.1
      3 ⟨"F", false, 2, 0, none⟩ 0 ⟨0, ""⟩ ⟨[], []⟩ 2 (.vstr (bytes "ab"))
      ⟨0, ""⟩ ⟨[], []⟩ (by decide) (by decide) rfl (by decide)
  · exact (parse_offset_monotone [PNode.lit (bytes "ab"), .lit (bytes "xy"),
      .ptr 1 true] (fun _ => "p") (fun _ => 0) ⟨none, false⟩ (bytes "ab")).2.2.2.2
      3 ⟨"N", false, 1, 1, none⟩ 0 ⟨0, ""⟩ ⟨[], []⟩ (-1) (.vstr [])
      ⟨0, "Waiting for 'xy'"⟩ ⟨[], []⟩ (by decide) rfl (by decide)

/-- The value and offset of the loop epilogue do not depend on the incoming error record. -/
lemma finishUint_err (size : Nat) (loc res : Nat) (e1 e2 : PError) :
    (finishUint size e1 loc res).1 = (finishUint size e2 loc res).1 ∧
    (finishUint size e1 loc res).2.1 = (finishUint size e2 loc res).2.1 := by
  unfold finishUint
  split_ifs <;> simp

/-- The value and offset of the hexadecimal loop do not depend on the incoming error record. -/
lemma hexLoop_err (str : ByteStr) (size : Nat) :
    ∀ cnt loc res e1 e2,
      (hexLoop str size e1 cnt loc res).1 = (hexLoop str size e2 cnt loc res).1 ∧
      (hexLoop str size e1 cnt loc res).2.1 =
        (hexLoop str size e2 cnt loc res).2.1 := by
  intro cnt
  induction cnt with
  | zero => intro loc res e1 e2; exact finishUint_err size loc res e1 e2
  | succ n ih =>
    intro loc res e1 e2
    simp only [hexLoop]
    split_ifs
    · simp
    · exact ih _ _ _ _
    · exact ih _ _ _ _
    · exact ih _ _ _ _
    · exact finishUint_err size loc res e1 e2
    · exact finishUint_err size loc res e1 e2

/-- The value and offset of the octal loop do not depend on the incoming error record. -/
lemma octLoop_err (str : ByteStr) (size : Nat) :
    ∀ cnt loc res e1 e2,
      (octLoop str size e1 cnt loc res).1 = (octLoop str size e2 cnt loc res).1 ∧
      (octLoop str size e1 cnt loc res).2.1 =
        (octLoop str size e2 cnt loc res).2.1 := by
  intro cnt
  induction cnt with
  | zero => intro loc res e1 e2; exact finishUint_err size loc res e1 e2
  | succ n ih =>
    intro loc res e1 e2
    simp only [octLoop]
    split_ifs
    · simp
    · exact ih _ _ _ _
    · exact finishUint_err size loc res e1 e2
    · exact finishUint_err size loc res e1 e2

/-- The value and offset of the decimal loop do not depend on the incoming error record. -/
lemma decLoop_err (str : ByteStr) (size : Nat) :
    ∀ cnt loc res e1 e2,
      (decLoop str size e1 cnt loc res).1 = (decLoop str size e2 cnt loc res).1 ∧
      (decLoop str size e1 cnt loc res).2.1 =
        (decLoop str size e2 cnt loc res).2.1 := by
  intro cnt
  induction cnt with
  | zero => intro loc res e1 e2; exact finishUint_err size loc res e1 e2
  | succ n ih =>
    intro loc res e1 e2
    simp only [decLoop]
    split_ifs
    · simp
    · simp
    · exact ih _ _ _ _
    · exact finishUint_err size loc res e1 e2
    · exact finishUint_err size loc res e1 e2

/-- The value and offset of `parseUint64` do not depend on the incoming error record. -/
lemma parseUint64_err (str : ByteStr) (loc size : Nat) (e1 e2 : PError) :
    (parseUint64 str loc size e1).1 = (parseUint64 str loc size e2).1 ∧
    (parseUint64 str loc size e1).2.1 = (parseUint64 str loc size e2).2.1 := by
  unfold parseUint64
  dsimp only
  split_ifs
  · simp
  · simp
  · exact hexLoop_err str size str.length (loc + 2) 0 e1 e2
  · exact octLoop_err str size str.length loc 0 e1 e2
  · exact decLoop_err str size str.length loc 0 e1 e2
  · simp

/-- The value and offset of `parseInt64` do not depend on the incoming error record (its error can: the end-of-file branch copies `err.loc`). -/
lemma parseInt64_err (str : ByteStr) (loc size : Nat) (e1 e2 : PError) :
    (parseInt64 str loc size e1).1 = (parseInt64 str loc size e2).1 ∧
    (parseInt64 str loc size e1).2.1 = (parseInt64 str loc size e2).2.1 := by
  unfold parseInt64
  dsimp only
  by_cases h1 : loc ≥ str.length
  · simp [h1]
  rw [if_neg h1, if_neg h1]
  by_cases hneg : str.getD loc 0 = 45
  · have he := parseUint64_err str (loc + 1) size e1 e2
    rcases hu1 : parseUint64 str (loc + 1) size e1 with ⟨v1, l1, ee1⟩
    rcases hu2 : parseUint64 str (loc + 1) size e2 with ⟨v2, l2, ee2⟩
    rw [hu1, hu2] at he
    dsimp only at he
    obtain ⟨hv, hl⟩ := he
    subst hv
    subst hl
    simp only [if_pos hneg, hu1, hu2]
    (try dsimp only)
    split_ifs <;> simp
  · have he := parseUint64_err str loc size e1 e2
    rcases hu1 : parseUint64 str loc size e1 with ⟨v1, l1, ee1⟩
    rcases hu2 : parseUint64 str loc size e2 with ⟨v2, l2, ee2⟩
    rw [hu1, hu2] at he
    dsimp only at he
    obtain ⟨hv, hl⟩ := he
    subst hv
    subst hl
    simp only [if_neg hneg, hu1, hu2]
    (try dsimp only)
    split_ifs <;> simp

/-- The value and offset of `octalEscape` do not depend on the incoming error record. -/
lemma octalEscape_err (str : ByteStr) (l1 : Nat) (e1 e2 : PError) :
    (octalEscape str l1 e1).1 = (octalEscape str l1 e2).1 ∧
    (octalEscape str l1 e1).2.1 = (octalEscape str l1 e2).2.1 := by
  unfold octalEscape
  dsimp only
  split_ifs <;> simp

/-- The value and offset of `hexEscape` do not depend on the incoming error record. -/
lemma hexEscape_err (str : ByteStr) (l1 l : Nat) (e1 e2 : PError) :
    (hexEscape str l1 l e1).1 = (hexEscape str l1 l e2).1 ∧
    (hexEscape str l1 l e1).2.1 = (hexEscape str l1 l e2).2.1 := by
  unfold hexEscape
  dsimp only
  split_ifs
  · simp
  · rcases hexEscapeAcc str (l1 + 1) l 0 0 with _ | r
    · simp
    · dsimp only
      split_ifs <;> simp

/-- The value and offset of `parseEscape` do not depend on the incoming error record. -/
lemma parseEscape_err (str : ByteStr) (l1 : Nat) (e1 e2 : PError) :
    (parseEscape str l1 e1).1 = (parseEscape str l1 e2).1 ∧
    (parseEscape str l1 e1).2.1 = (parseEscape str l1 e2).2.1 := by
  have ho := octalEscape_err str l1 e1 e2
  have h2 := hexEscape_err str l1 2 e1 e2
  have h4 := hexEscape_err str l1 4 e1 e2
  have h8 := hexEscape_err str l1 8 e1 e2
  unfold parseEscape
  dsimp only
  constructor
  · simp only [apply_ite (fun p : Int × Int × PError => p.1),
      apply_ite (fun n : Nat => (hexEscape str l1 n e1).1),
      apply_ite (fun n : Nat => (hexEscape str l1 n e2).1),
      ho.1, h2.1, h4.1, h8.1]
  · simp only [apply_ite (fun p : Int × Int × PError => p.2.1),
      apply_ite (fun n : Nat => (hexEscape str l1 n e1).2.1),
      apply_ite (fun n : Nat => (hexEscape str l1 n e2).2.1),
      ho.2, h2.2, h4.2, h8.2]

/-- The value and offset of `parseUnicodeValue` do not depend on the incoming error record. -/
lemma parseUnicodeValue_err (str : ByteStr) (loc : Nat) (e1 e2 : PError) :
    (parseUnicodeValue str loc e1).1 = (parseUnicodeValue str loc e2).1 ∧
    (parseUnicodeValue str loc e1).2.1 = (parseUnicodeValue str loc e2).2.1 := by
  unfold parseUnicodeValue
  split_ifs
  · simp
  · simp
  · exact parseEscape_err str (loc + 1) e1 e2
  · rcases utf8DecodeRune (str.drop loc) with ⟨r, sz⟩
    dsimp only
    split_ifs <;> simp

/-- The value and offset of the raw-string loop do not depend on the incoming error record. -/
lemma rawStrLoop_err (str : ByteStr) :
    ∀ cnt buf loc e1 e2,
      (rawStrLoop str e1 cnt buf loc).1 = (rawStrLoop str e2 cnt buf loc).1 ∧
      (rawStrLoop str e1 cnt buf loc).2.1 =
        (rawStrLoop str e2 cnt buf loc).2.1 := by
  intro cnt
  induction cnt with
  | zero => intro buf loc e1 e2; simp [rawStrLoop]
  | succ n ih =>
    intro buf loc e1 e2
    simp only [rawStrLoop]
    split_ifs
    · simp
    · exact ih _ _ _ _
    · exact ih _ _ _ _
    · simp

/-- The value and offset of the interpreted-string loop do not depend on the incoming error record. -/
lemma interpStrLoop_err (str : ByteStr) :
    ∀ cnt buf loc e1 e2,
      (interpStrLoop str cnt e1 buf loc).1 = (interpStrLoop str cnt e2 buf loc).1 ∧
      (interpStrLoop str cnt e1 buf loc).2.1 =
        (interpStrLoop str cnt e2 buf loc).2.1 := by
  intro cnt
  induction cnt with
  | zero => intro buf loc e1 e2; simp [interpStrLoop]
  | succ n ih =>
    intro buf loc e1 e2
    have hu := parseUnicodeValue_err str loc e1 e2
    rcases hu1 : parseUnicodeValue str loc e1 with ⟨r1, l1, ee1⟩
    rcases hu2 : parseUnicodeValue str loc e2 with ⟨r2, l2, ee2⟩
    rw [hu1, hu2] at hu
    dsimp only at hu
    obtain ⟨hr, hl⟩ := hu
    subst hr
    subst hl
    simp only [interpStrLoop, hu1, hu2]
    (try dsimp only)
    split_ifs
    · simp
    · simp
    · exact ih _ _ _ _
    · exact ih _ _ _ _
    · simp

/-- The value and offset of `parseString` do not depend on the incoming error record. -/
lemma parseString_err (str : ByteStr) (loc : Nat) (e1 e2 : PError) :
    (parseString str loc e1).1 = (parseString str loc e2).1 ∧
    (parseString str loc e1).2.1 = (parseString str loc e2).2.1 := by
  unfold parseString
  split_ifs
  · exact rawStrLoop_err str (str.length + 1) [] (loc + 1) e1 e2
  · exact interpStrLoop_err str (str.length + 1) [] (loc + 1) e1 e2
  · simp

/-- Every pending computation is similar to itself. -/
lemma CallSim_refl (c : Call) : CallSim c c := by
  cases c <;> simp [CallSim]

/-- Inversion of similarity for `parse`. -/
lemma CallSim_parse {id loc : Nat} {c2 : Call}
    (h : CallSim (.parse id loc) c2) : c2 = .parse id loc := by
  cases c2 <;> first
    | exact Call.noConfusion (show Call.parse id loc = _ from h)
    | exact (show Call.parse id loc = _ from h).symm

/-- Inversion of similarity for `node`. -/
lemma CallSim_node {id loc : Nat} {c2 : Call}
    (h : CallSim (.node id loc) c2) : c2 = .node id loc := by
  cases c2 <;> first
    | exact Call.noConfusion (show Call.node id loc = _ from h)
    | exact (show Call.node id loc = _ from h).symm

/-- Inversion of similarity for `fieldStep`. -/
lemma CallSim_fieldStep {f : PField} {loc : Nat} {c2 : Call}
    (h : CallSim (.fieldStep f loc) c2) : c2 = .fieldStep f loc := by
  cases c2 <;> first
    | exact Call.noConfusion (show Call.fieldStep f loc = _ from h)
    | exact (show Call.fieldStep f loc = _ from h).symm

/-- Inversion of similarity for `fieldsSeq`. -/
lemma CallSim_fieldsSeq {fields : List PField} {idx : Nat} {cur : GoVal}
    {loc : Nat} {c2 : Call}
    (h : CallSim (.fieldsSeq fields idx cur loc) c2) :
    ∃ cur2, c2 = .fieldsSeq fields idx cur2 loc := by
  cases c2 with
  | fieldsSeq f2 i2 cur2 l2 =>
    obtain ⟨h1, h2, h3⟩ := h
    subst h1
    subst h2
    subst h3
    exact ⟨cur2, rfl⟩
  | parse a b =>
    exact Call.noConfusion (show Call.fieldsSeq fields idx cur loc = _ from h)
  | node a b =>
    exact Call.noConfusion (show Call.fieldsSeq fields idx cur loc = _ from h)
  | fieldStep a b =>
    exact Call.noConfusion (show Call.fieldsSeq fields idx cur loc = _ from h)
  | fieldsFirst a b c d e =>
    exact Call.noConfusion (show Call.fieldsSeq fields idx cur loc = _ from h)
  | sliceLoop a b c d e =>
    exact Call.noConfusion (show Call.fieldsSeq fields idx cur loc = _ from h)
  | lrLoop a b =>
    exact Call.noConfusion (show Call.fieldsSeq fields idx cur loc = _ from h)

/-- Inversion of similarity for `fieldsFirst`. -/
lemma CallSim_fieldsFirst {fields : List PField} {idx : Nat} {cur : GoVal}
    {maxErr : PError} {loc : Nat} {c2 : Call}
    (h : CallSim (.fieldsFirst fields idx cur maxErr loc) c2) :
    ∃ cur2 maxErr2, c2 = .fieldsFirst fields idx cur2 maxErr2 loc := by
  cases c2 with
  | fieldsFirst f2 i2 cur2 m2 l2 =>
    obtain ⟨h1, h2, h3⟩ := h
    subst h1
    subst h2
    subst h3
    exact ⟨cur2, m2, rfl⟩
  | parse a b =>
    exact Call.noConfusion
      (show Call.fieldsFirst fields idx cur maxErr loc = _ from h)
  | node a b =>
    exact Call.noConfusion
      (show Call.fieldsFirst fields idx cur maxErr loc = _ from h)
  | fieldStep a b =>
    exact Call.noConfusion
      (show Call.fieldsFirst fields idx cur maxErr loc = _ from h)
  | fieldsSeq a b c d =>
    exact Call.noConfusion
      (show Call.fieldsFirst fields idx cur maxErr loc = _ from h)
  | sliceLoop a b c d e =>
    exact Call.noConfusion
      (show Call.fieldsFirst fields idx cur maxErr loc = _ from h)
  | lrLoop a b =>
    exact Call.noConfusion
      (show Call.fieldsFirst fields idx cur maxErr loc = _ from h)

/-- Inversion of similarity for `sliceLoop`. -/
lemma CallSim_sliceLoop {inner : Nat} {delim : ByteStr} {mn : Nat}
    {vals : List GoVal} {loc : Nat} {c2 : Call}
    (h : CallSim (.sliceLoop inner delim mn vals loc) c2) :
    ∃ vals2, vals.length = vals2.length ∧
      c2 = .sliceLoop inner delim mn vals2 loc := by
  cases c2 with
  | sliceLoop i2 d2 m2 vals2 l2 =>
    obtain ⟨h1, h2, h3, h4, h5⟩ := h
    subst h1
    subst h2
    subst h3
    subst h5
    exact ⟨vals2, h4, rfl⟩
  | parse a b =>
    exact Call.noConfusion
      (show Call.sliceLoop inner delim mn vals loc = _ from h)
  | node a b =>
    exact Call.noConfusion
      (show Call.sliceLoop inner delim mn vals loc = _ from h)
  | fieldStep a b =>
    exact Call.noConfusion
      (show Call.sliceLoop inner delim mn vals loc = _ from h)
  | fieldsSeq a b c d =>
    exact Call.noConfusion
      (show Call.sliceLoop inner delim mn vals loc = _ from h)
  | fieldsFirst a b c d e =>
    exact Call.noConfusion
      (show Call.sliceLoop inner delim mn vals loc = _ from h)
  | lrLoop a b =>
    exact Call.noConfusion
      (show Call.sliceLoop inner delim mn vals loc = _ from h)

/-- Inversion of similarity for `lrLoop`. -/
lemma CallSim_lrLoop {id loc : Nat} {c2 : Call}
    (h : CallSim (.lrLoop id loc) c2) : c2 = .lrLoop id loc := by
  cases c2 <;> first
    | exact Call.noConfusion (show Call.lrLoop id loc = _ from h)
    | exact (show Call.lrLoop id loc = _ from h).symm

/-- In a hook-free grammar, the fields of a sequence node have no callbacks. -/
lemma hookFree_seq {g : List PNode} (hfree : hookFree g) {id : Nat}
    {fields : List PField} (hn : nodeAt g id = .seq fields) :
    ∀ f ∈ fields, f.setHook = none := by
  unfold nodeAt at hn
  by_cases hid : id < g.length
  · rw [List.getD_eq_getElem g _ hid] at hn
    have hmem : g[id] ∈ g := List.getElem_mem hid
    have := hfree _ hmem
    rw [hn] at this
    exact this
  · rw [List.getD_eq_default] at hn
    · cases hn
    · omega

/-- In a hook-free grammar, the fields of a `FirstOf` node have no callbacks. -/
lemma hookFree_firstOf {g : List PNode} (hfree : hookFree g) {id : Nat}
    {fields : List PField} (hn : nodeAt g id = .firstOf fields) :
    ∀ f ∈ fields, f.setHook = none := by
  unfold nodeAt at hn
  by_cases hid : id < g.length
  · rw [List.getD_eq_getElem g _ hid] at hn
    have hmem : g[id] ∈ g := List.getElem_mem hid
    have := hfree _ hmem
    rw [hn] at this
    exact this
  · rw [List.getD_eq_default] at hn
    · cases hn
    · omega

/-- Transfer of reference-engine success: a successful reference run keeps
the same final offset under more fuel, a smaller ancestor stack, a
different incoming error, and a similar pending computation, provided the
grammar and the computation are hook-free (callbacks could inspect the
value, which is not preserved). -/
theorem refRun_transfer (g : List PNode) (names : Nat → String)
    (opts : POptions) (str : ByteStr) (hfree : hookFree g) :
    ∀ fuel anc c err l v e,
      refRun g names opts str fuel anc c err = .ok l v e →
      ∀ fuel2 anc2 c2 err2,
        fuel ≤ fuel2 → (∀ x ∈ anc2, x ∈ anc) → CallSim c c2 →
        callHookFree c →
        ∃ v2 e2, refRun g names opts str fuel2 anc2 c2 err2 = .ok l v2 e2 := by
  intro fuel
  induction fuel with
  | zero =>
    intro anc c err l v e h
    simp [refRun] at h
  | succ n ih =>
    intro anc c err l v e h fuel2 anc2 c2 err2 hf hanc hsim hhf
    rcases fuel2 with _ | m
    · omega
    have hnm : n ≤ m := by omega
    cases c with
    | parse id loc0 =>
      rw [CallSim_parse hsim]
      simp only [refRun] at h ⊢
      by_cases hin : (id, skipWS opts str loc0) ∈ anc
      · rw [if_pos hin] at h
        cases h
      · rw [if_neg hin] at h
        have hin2 : (id, skipWS opts str loc0) ∉ anc2 := fun hx => hin (hanc _ hx)
        simp only [if_neg hin2]
        refine ih _ _ _ _ _ _ h m _ _ err2 hnm ?_ (CallSim_refl _) trivial
        intro x hx
        rcases List.mem_cons.mp hx with rfl | hx2
        · exact List.mem_cons_self _ _
        · exact List.mem_cons_of_mem _ (hanc _ hx2)
    | node id loc =>
      rw [CallSim_node hsim]
      rcases hn : nodeAt g id with lit | _ | bits | bits | _ | _ | fields |
        fields | ⟨inner, delim, mn⟩ | ⟨inner, opt⟩
      · simp only [refRun, hn] at h ⊢
        by_cases hc : strAt str loc lit
        · simp only [if_pos hc] at h ⊢
          cases h
          exact ⟨_, _, rfl⟩
        · simp only [if_neg hc] at h ⊢
          cases h
          exact ⟨_, _, rfl⟩
      · simp only [refRun, hn] at h ⊢
        by_cases h1 : strAt str loc (bytes "true")
        · simp only [if_pos h1] at h ⊢
          by_cases h2 : loc + 4 < str.length ∧ identChar (str.getD (loc + 4) 0)
          · simp only [if_pos h2] at h ⊢
            cases h
            exact ⟨_, _, rfl⟩
          · simp only [if_neg h2] at h ⊢
            cases h
            exact ⟨_, _, rfl⟩
        · simp only [if_neg h1] at h ⊢
          by_cases h3 : strAt str loc (bytes "false")
          · simp only [if_pos h3] at h ⊢
            by_cases h4 : loc + 5 < str.length ∧ identChar (str.getD (loc + 5) 0)
            · simp only [if_pos h4] at h ⊢
              cases h
              exact ⟨_, _, rfl⟩
            · simp only [if_neg h4] at h ⊢
              cases h
              exact ⟨_, _, rfl⟩
          · simp only [if_neg h3] at h ⊢
            cases h
            exact ⟨_, _, rfl⟩
      · -- intP
        rcases hu1 : parseUnicodeValue str (loc + 1) err with ⟨r1, l1, ee1⟩
        rcases hu2 : parseUnicodeValue str (loc + 1) err2 with ⟨r2, l2, ee2⟩
        have hue := parseUnicodeValue_err str (loc + 1) err err2
        rw [hu1, hu2] at hue
        dsimp only at hue
        obtain ⟨hr, hl⟩ := hue
        subst hr
        subst hl
        rcases hi1 : parseInt64 str loc bits err with ⟨q1, k1, ef1⟩
        rcases hi2 : parseInt64 str loc bits err2 with ⟨q2, k2, ef2⟩
        have hie := parseInt64_err str loc bits err err2
        rw [hi1, hi2] at hie
        dsimp only at hie
        obtain ⟨hq, hk⟩ := hie
        subst hq
        subst hk
        simp only [refRun, hn, hu1, hu2, hi1, hi2] at h ⊢
        by_cases hg : bits = 32 ∧ loc < str.length ∧ str.getD loc 0 = 39
        · simp only [if_pos hg] at h ⊢
          by_cases hl1 : l1 < 0
          · simp only [if_pos hl1] at h ⊢
            cases h
            exact ⟨_, _, rfl⟩
          · simp only [if_neg hl1] at h ⊢
            by_cases hcq : str.length ≤ l1.toNat ∨ str.getD l1.toNat 0 ≠ 39
            · simp only [if_pos hcq] at h ⊢
              cases h
              exact ⟨_, _, rfl⟩
            · simp only [if_neg hcq] at h ⊢
              cases h
              exact ⟨_, _, rfl⟩
        · simp only [if_neg hg] at h ⊢
          by_cases hk1 : k1 < 0
          · simp only [if_pos hk1] at h ⊢
            cases h
            exact ⟨_, _, rfl⟩
          · simp only [if_neg hk1] at h ⊢
            cases h
            exact ⟨_, _, rfl⟩
      · -- uintP
        rcases hi1 : parseUint64 str loc bits err with ⟨q1, k1, ef1⟩
        rcases hi2 : parseUint64 str loc bits err2 with ⟨q2, k2, ef2⟩
        have hie := parseUint64_err str loc bits err err2
        rw [hi1, hi2] at hie
        dsimp only at hie
        obtain ⟨hq, hk⟩ := hie
        subst hq
        subst hk
        simp only [refRun, hn, hi1, hi2] at h ⊢
        by_cases hk1 : k1 < 0
        · simp only [if_pos hk1] at h ⊢
          cases h
          exact ⟨_, _, rfl⟩
        · simp only [if_neg hk1] at h ⊢
          cases h
          exact ⟨_, _, rfl⟩
      · -- strP
        rcases hi1 : parseString str loc err with ⟨q1, k1, ef1⟩
        rcases hi2 : parseString str loc err2 with ⟨q2, k2, ef2⟩
        have hie := parseString_err str loc err err2
        rw [hi1, hi2] at hie
        dsimp only at hie
        obtain ⟨hq, hk⟩ := hie
        subst hq
        subst hk
        simp only [refRun, hn, hi1, hi2] at h ⊢
        by_cases hk1 : k1 < 0
        · simp only [if_pos hk1] at h ⊢
          cases h
          exact ⟨_, _, rfl⟩
        · simp only [if_neg hk1] at h ⊢
          cases h
          exact ⟨_, _, rfl⟩
      · -- locationP
        simp only [refRun, hn] at h ⊢
        cases h
        exact ⟨_, _, rfl⟩
      · -- seq
        simp only [refRun, hn] at h ⊢
        exact ih _ _ _ _ _ _ h m _ _ err2 hnm hanc (by simp [CallSim])
          (hookFree_seq hfree hn)
      · -- firstOf
        simp only [refRun, hn] at h ⊢
        exact ih _ _ _ _ _ _ h m _ _ err2 hnm hanc (by simp [CallSim])
          (hookFree_firstOf hfree hn)
      · -- slice
        simp only [refRun, hn] at h ⊢
        exact ih _ _ _ _ _ _ h m _ _ err2 hnm hanc (by simp [CallSim]) trivial
      · -- ptr
        simp only [refRun, hn] at h ⊢
        rcases hri : refRun g names opts str n anc (.parse inner loc) err
          with ⟨l1, v1, e1⟩ | m1 | _ | ⟨a, b⟩ <;> rw [hri] at h
        · obtain ⟨v2', e2', hsub⟩ :=
            ih _ _ _ _ _ _ hri m _ _ err2 hnm hanc (CallSim_refl _) trivial
          simp only [hsub]
          (try dsimp only at h)
          (try dsimp only)
          by_cases hl1 : l1 < 0
          · simp only [if_pos hl1] at h ⊢
            by_cases hopt : opt = true
            · simp only [if_pos hopt] at h ⊢
              cases h
              exact ⟨_, _, rfl⟩
            · simp only [if_neg hopt] at h ⊢
              cases h
              exact ⟨_, _, rfl⟩
          · simp only [if_neg hl1] at h ⊢
            cases h
            exact ⟨_, _, rfl⟩
        · cases h
        · cases h
        · cases h
    | fieldStep f loc =>
      rw [CallSim_fieldStep hsim]
      have hno : f.setHook = none := hhf
      simp only [refRun] at h ⊢
      rcases hri : refRun g names opts str n anc (.parse f.parse loc) err
        with ⟨l1, v1, e1⟩ | m1 | _ | ⟨a, b⟩ <;> rw [hri] at h
      · obtain ⟨v2', e2', hsub⟩ :=
          ih _ _ _ _ _ _ hri m _ _ err2 hnm hanc (CallSim_refl _) trivial
        simp only [hsub]
        (try dsimp only at h)
        (try dsimp only)
        by_cases hna : f.flags &&& fieldNotAny ≠ 0
        · simp only [if_pos hna] at h ⊢
          by_cases h0 : 0 ≤ l1
          · simp only [if_pos h0] at h ⊢
            cases h
            exact ⟨_, _, rfl⟩
          · simp only [if_neg h0] at h ⊢
            cases h
            exact ⟨_, _, rfl⟩
        · simp only [if_neg hna] at h ⊢
          by_cases hfb : f.flags &&& fieldFollowedBy ≠ 0
          · simp only [if_pos hfb] at h ⊢
            by_cases hl1 : l1 < 0
            · simp only [if_pos hl1] at h ⊢
              cases h
              exact ⟨_, _, rfl⟩
            · simp only [if_neg hl1] at h ⊢
              cases h
              exact ⟨_, _, rfl⟩
          · simp only [if_neg hfb] at h ⊢
            by_cases hl1 : l1 < 0
            · simp only [if_pos hl1] at h ⊢
              cases h
              exact ⟨_, _, rfl⟩
            · simp only [if_neg hl1, hno] at h ⊢
              cases h
              exact ⟨_, _, rfl⟩
      · cases h
      · cases h
      · cases h
    | fieldsSeq fields idx cur loc =>
      obtain ⟨cur2, rfl⟩ := CallSim_fieldsSeq hsim
      rcases fields with _ | ⟨f, rest⟩
      · simp only [refRun] at h ⊢
        cases h
        exact ⟨_, _, rfl⟩
      · simp only [refRun] at h ⊢
        rcases hri : refRun g names opts str n anc (.fieldStep f loc) err
          with ⟨l1, v1, e1⟩ | m1 | _ | ⟨a, b⟩ <;> rw [hri] at h
        · obtain ⟨v2', e2', hsub⟩ :=
            ih _ _ _ _ _ _ hri m _ _ err2 hnm hanc (CallSim_refl _)
              (hhf f (List.mem_cons_self _ _))
          simp only [hsub]
          (try dsimp only at h)
          (try dsimp only)
          by_cases hl1 : l1 < 0
          · simp only [if_pos hl1] at h ⊢
            cases h
            exact ⟨_, _, rfl⟩
          · simp only [if_neg hl1] at h ⊢
            exact ih _ _ _ _ _ _ h m _ _ e2' hnm hanc (by simp [CallSim])
              (fun f2 hf2 => hhf f2 (List.mem_cons_of_mem _ hf2))
        · cases h
        · cases h
        · cases h
    | fieldsFirst fields idx cur maxErr loc =>
      obtain ⟨cur2, maxErr2, rfl⟩ := CallSim_fieldsFirst hsim
      rcases fields with _ | ⟨f, rest⟩
      · simp only [refRun] at h ⊢
        cases h
        exact ⟨_, _, rfl⟩
      · simp only [refRun] at h ⊢
        rcases hri : refRun g names opts str n anc (.fieldStep f loc) err
          with ⟨l1, v1, e1⟩ | m1 | _ | ⟨a, b⟩ <;> rw [hri] at h
        · obtain ⟨v2', e2', hsub⟩ :=
            ih _ _ _ _ _ _ hri m _ _ err2 hnm hanc (CallSim_refl _)
              (hhf f (List.mem_cons_self _ _))
          simp only [hsub]
          (try dsimp only at h)
          (try dsimp only)
          by_cases hl1 : 0 ≤ l1
          · simp only [if_pos hl1] at h ⊢
            cases h
            exact ⟨_, _, rfl⟩
          · simp only [if_neg hl1] at h ⊢
            exact ih _ _ _ _ _ _ h m _ _ e2' hnm hanc (by simp [CallSim])
              (fun f2 hf2 => hhf f2 (List.mem_cons_of_mem _ hf2))
        · cases h
        · cases h
        · cases h
    | sliceLoop inner delim mn vals loc =>
      obtain ⟨vals2, hlen, rfl⟩ := CallSim_sliceLoop hsim
      simp only [refRun] at h ⊢
      rcases hri : refRun g names opts str n anc (.parse inner loc) err
        with ⟨l1, v1, e1⟩ | m1 | _ | ⟨a, b⟩ <;> rw [hri] at h
      · obtain ⟨v2', e2', hsub⟩ :=
          ih _ _ _ _ _ _ hri m _ _ err2 hnm hanc (CallSim_refl _) trivial
        simp only [hsub]
        (try dsimp only at h)
        (try dsimp only)
        by_cases hnl : l1 < 0
        · simp only [if_pos hnl] at h ⊢
          by_cases hmin : mn ≤ vals.length
          · have hmin2 : mn ≤ vals2.length := hlen ▸ hmin
            simp only [if_pos hmin] at h
            simp only [if_pos hmin2]
            cases h
            exact ⟨_, _, rfl⟩
          · have hmin2 : ¬ mn ≤ vals2.length := hlen ▸ hmin
            simp only [if_neg hmin] at h
            simp only [if_neg hmin2]
            cases h
            exact ⟨_, _, rfl⟩
        · simp only [if_neg hnl] at h ⊢
          by_cases hz : l1 ≤ (loc : Int)
          · simp only [if_pos hz] at h
            cases h
          · simp only [if_neg hz] at h ⊢
            by_cases hd : 0 < delim.length
            · simp only [if_pos hd] at h ⊢
              by_cases hat : strAt str (skipWS opts str l1.toNat) delim
              · simp only [if_pos hat] at h ⊢
                refine ih _ _ _ _ _ _ h m _ _ e2' hnm hanc ?_ trivial
                simp [CallSim, hlen]
              · simp only [if_neg hat] at h ⊢
                cases h
                exact ⟨_, _, rfl⟩
            · simp only [if_neg hd] at h ⊢
              refine ih _ _ _ _ _ _ h m _ _ e2' hnm hanc ?_ trivial
              simp [CallSim, hlen]
      · cases h
      · cases h
      · cases h
    | lrLoop id loc =>
      rw [CallSim_lrLoop hsim]
      simp only [refRun] at h
      cases h

/-- The reference engine never reads the packrat flag of the options. -/
theorem refRun_optsFlag (g : List PNode) (names : Nat → String)
    (sw : Option (ByteStr → Nat → Nat)) (b1 b2 : Bool) (str : ByteStr) :
    ∀ fuel anc c err,
      refRun g names ⟨sw, b1⟩ str fuel anc c err =
        refRun g names ⟨sw, b2⟩ str fuel anc c err := by
  intro fuel
  induction fuel with
  | zero => intro anc c err; rfl
  | succ n ih =>
    intro anc c err
    cases c <;> (simp only [refRun, ih]; try rfl)

/-- Deleting a freshly inserted key restores the original table. -/
lemma pkDelete_pkSet_of_none (pk : List ((Nat × Nat) × PVal)) (k : Nat × Nat)
    (v : PVal) (h : pkLookup pk k = none) : pkDelete (pkSet pk k v) k = pk := by
  have hf : pk.find? (fun e => e.1 = k) = none := by
    unfold pkLookup at h
    rcases hh : pk.find? (fun e => e.1 = k) with _ | x
    · exact hh
    · rw [hh] at h
      simp at h
  have hall := List.find?_eq_none.mp hf
  unfold pkSet
  rw [if_neg (by simp [hf])]
  unfold pkDelete
  simp only [List.filter_cons]
  rw [if_neg (by simp)]
  apply List.filter_eq_self.mpr
  intro a ha
  have := hall a ha
  simp at this ⊢
  exact this

/-- With packrat disabled, the engine reproduces the reference semantics
exactly — same offset, value and error — and restores its state: probing
entries are inserted and deleted symmetrically, provided the reference
run completes without a left-recursive re-entry. -/
theorem runOff_sim (g : List PNode) (names : Nat → String) (lrMap : Nat → Int)
    (opts : POptions) (str : ByteStr) (hoff : opts.packratEnabled = false) :
    ∀ fuel anc c err l v e,
      refRun g names opts str fuel anc c err = .ok l v e →
      ∀ s : PState, s.recursiveLocations = [] →
        (∀ k w, pkLookup s.packrat k = some w → k ∈ anc) →
        run g names lrMap opts str fuel c err s = .ok l v e s := by
  intro fuel
  induction fuel with
  | zero =>
    intro anc c err l v e h
    simp [refRun] at h
  | succ n ih =>
    intro anc c err l v e h s hrl hpk
    cases c with
    | parse id loc0 =>
      simp only [refRun] at h
      simp only [run]
      by_cases hin : (id, skipWS opts str loc0) ∈ anc
      · rw [if_pos hin] at h
        cases h
      · rw [if_neg hin] at h
        by_cases hsc : ¬ opts.packratEnabled = true ∧ 0 < lrMap id
        · rw [if_pos hsc]
          exact ih _ _ _ _ _ _ h s hrl
            (fun k w hw => List.mem_cons_of_mem _ (hpk k w hw))
        · rw [if_neg hsc]
          rcases hlk : pkLookup s.packrat (id, skipWS opts str loc0) with _ | cache
          · dsimp only
            have hnested := ih _ _ _ _ _ _ h
              ⟨pkSet s.packrat (id, skipWS opts str loc0)
                ⟨false, 0, ((skipWS opts str loc0 : Nat) : Int), none, "", 0⟩,
               s.recursiveLocations⟩
              (by dsimp only; exact hrl)
              (by intro k w hw
                  dsimp only at hw
                  rw [pkLookup_pkSet] at hw
                  by_cases hk : k = (id, skipWS opts str loc0)
                  · exact hk ▸ List.mem_cons_self _ _
                  · rw [if_neg hk] at hw
                    exact List.mem_cons_of_mem _ (hpk k w hw))
            rw [hnested]
            dsimp only
            have hplk : pkLookup (pkSet s.packrat (id, skipWS opts str loc0)
                ⟨false, 0, ((skipWS opts str loc0 : Nat) : Int), none, "", 0⟩)
                (id, skipWS opts str loc0) =
                some ⟨false, 0, ((skipWS opts str loc0 : Nat) : Int), none, "", 0⟩ := by
              rw [pkLookup_pkSet]
              simp
            simp [hplk, hrl, hoff, pkDelete_pkSet_of_none _ _ _ hlk]
            rw [← hrl]
          · exact absurd (hpk _ cache hlk) hin
    | node id loc =>
      rcases hn : nodeAt g id with lit | _ | bits | bits | _ | _ | fields |
        fields | ⟨inner, delim, mn⟩ | ⟨inner, opt⟩
      · simp only [refRun, hn] at h
        simp only [run, hn]
        by_cases hc : strAt str loc lit
        · simp only [if_pos hc] at h ⊢
          cases h
          rfl
        · simp only [if_neg hc] at h ⊢
          cases h
          rfl
      · simp only [refRun, hn] at h
        simp only [run, hn]
        by_cases h1 : strAt str loc (bytes "true")
        · simp only [if_pos h1] at h ⊢
          by_cases h2 : loc + 4 < str.length ∧ identChar (str.getD (loc + 4) 0)
          · simp only [if_pos h2] at h ⊢
            cases h
            rfl
          · simp only [if_neg h2] at h ⊢
            cases h
            rfl
        · simp only [if_neg h1] at h ⊢
          by_cases h3 : strAt str loc (bytes "false")
          · simp only [if_pos h3] at h ⊢
            by_cases h4 : loc + 5 < str.length ∧ identChar (str.getD (loc + 5) 0)
            · simp only [if_pos h4] at h ⊢
              cases h
              rfl
            · simp only [if_neg h4] at h ⊢
              cases h
              rfl
          · simp only [if_neg h3] at h ⊢
            cases h
            rfl
      · rcases hu1 : parseUnicodeValue str (loc + 1) err with ⟨r1, l1, ee1⟩
        rcases hi1 : parseInt64 str loc bits err with ⟨q1, k1, ef1⟩
        simp only [refRun, hn, hu1, hi1] at h
        simp only [run, hn, hu1, hi1]
        by_cases hg : bits = 32 ∧ loc < str.length ∧ str.getD loc 0 = 39
        · simp only [if_pos hg] at h ⊢
          by_cases hl1 : l1 < 0
          · simp only [if_pos hl1] at h ⊢
            cases h
            rfl
          · simp only [if_neg hl1] at h ⊢
            by_cases hcq : str.length ≤ l1.toNat ∨ str.getD l1.toNat 0 ≠ 39
            · simp only [if_pos hcq] at h ⊢
              cases h
              rfl
            · simp only [if_neg hcq] at h ⊢
              cases h
              rfl
        · simp only [if_neg hg] at h ⊢
          by_cases hk1 : k1 < 0
          · simp only [if_pos hk1] at h ⊢
            cases h
            rfl
          · simp only [if_neg hk1] at h ⊢
            cases h
            rfl
      · rcases hi1 : parseUint64 str loc bits err with ⟨q1, k1, ef1⟩
        simp only [refRun, hn, hi1] at h
        simp only [run, hn, hi1]
        by_cases hk1 : k1 < 0
        · simp only [if_pos hk1] at h ⊢
          cases h
          rfl
        · simp only [if_neg hk1] at h ⊢
          cases h
          rfl
      · rcases hi1 : parseString str loc err with ⟨q1, k1, ef1⟩
        simp only [refRun, hn, hi1] at h
        simp only [run, hn, hi1]
        by_cases hk1 : k1 < 0
        · simp only [if_pos hk1] at h ⊢
          cases h
          rfl
        · simp only [if_neg hk1] at h ⊢
          cases h
          rfl
      · simp only [refRun, hn] at h
        simp only [run, hn]
        cases h
        rfl
      · simp only [refRun, hn] at h
        simp only [run, hn]
        exact ih _ _ _ _ _ _ h s hrl hpk
      · simp only [refRun, hn] at h
        simp only [run, hn]
        exact ih _ _ _ _ _ _ h s hrl hpk
      · simp only [refRun, hn] at h
        simp only [run, hn]
        exact ih _ _ _ _ _ _ h s hrl hpk
      · simp only [refRun, hn] at h
        simp only [run, hn]
        rcases hri : refRun g names opts str n anc (.parse inner loc) err
          with ⟨l1, v1, e1⟩ | m1 | _ | ⟨a, b⟩ <;> rw [hri] at h
        · rw [ih _ _ _ _ _ _ hri s hrl hpk]
          dsimp only
          by_cases hl1 : l1 < 0
          · simp only [if_pos hl1] at h ⊢
            by_cases hopt : opt = true
            · simp only [if_pos hopt] at h ⊢
              cases h
              rfl
            · simp only [if_neg hopt] at h ⊢
              cases h
              rfl
          · simp only [if_neg hl1] at h ⊢
            cases h
            rfl
        · cases h
        · cases h
        · cases h
    | fieldStep f loc =>
      simp only [refRun] at h
      simp only [run]
      rcases hri : refRun g names opts str n anc (.parse f.parse loc) err
        with ⟨l1, v1, e1⟩ | m1 | _ | ⟨a, b⟩ <;> rw [hri] at h
      · rw [ih _ _ _ _ _ _ hri s hrl hpk]
        dsimp only
        by_cases hna : f.flags &&& fieldNotAny ≠ 0
        · simp only [if_pos hna] at h ⊢
          by_cases h0 : 0 ≤ l1
          · simp only [if_pos h0] at h ⊢
            cases h
            rfl
          · simp only [if_neg h0] at h ⊢
            cases h
            rfl
        · simp only [if_neg hna] at h ⊢
          by_cases hfb : f.flags &&& fieldFollowedBy ≠ 0
          · simp only [if_pos hfb] at h ⊢
            by_cases hl1 : l1 < 0
            · simp only [if_pos hl1] at h ⊢
              cases h
              rfl
            · simp only [if_neg hl1] at h ⊢
              cases h
              rfl
          · simp only [if_neg hfb] at h ⊢
            by_cases hl1 : l1 < 0
            · simp only [if_pos hl1] at h ⊢
              cases h
              rfl
            · simp only [if_neg hl1] at h ⊢
              rcases hh : f.setHook with _ | hook <;> simp only [hh] at h ⊢
              · cases h
                rfl
              · rcases hhv : hook v1 with _ | m1 <;> simp only [hhv] at h ⊢
                · cases h
                  rfl
                · cases h
                  rfl
      · cases h
      · cases h
      · cases h
    | fieldsSeq fields idx cur loc =>
      rcases fields with _ | ⟨f, rest⟩
      · simp only [refRun] at h
        simp only [run]
        cases h
        rfl
      · simp only [refRun] at h
        simp only [run]
        rcases hri : refRun g names opts str n anc (.fieldStep f loc) err
          with ⟨l1, v1, e1⟩ | m1 | _ | ⟨a, b⟩ <;> rw [hri] at h
        · rw [ih _ _ _ _ _ _ hri s hrl hpk]
          dsimp only
          by_cases hl1 : l1 < 0
          · simp only [if_pos hl1] at h ⊢
            cases h
            rfl
          · simp only [if_neg hl1] at h ⊢
            exact ih _ _ _ _ _ _ h s hrl hpk
        · cases h
        · cases h
        · cases h
    | fieldsFirst fields idx cur maxErr loc =>
      rcases fields with _ | ⟨f, rest⟩
      · simp only [refRun] at h
        simp only [run]
        cases h
        rfl
      · simp only [refRun] at h
        simp only [run]
        rcases hri : refRun g names opts str n anc (.fieldStep f loc) err
          with ⟨l1, v1, e1⟩ | m1 | _ | ⟨a, b⟩ <;> rw [hri] at h
        · rw [ih _ _ _ _ _ _ hri s hrl hpk]
          dsimp only
          by_cases hl1 : 0 ≤ l1
          · simp only [if_pos hl1] at h ⊢
            cases h
            rfl
          · simp only [if_neg hl1] at h ⊢
            exact ih _ _ _ _ _ _ h s hrl hpk
        · cases h
        · cases h
        · cases h
    | sliceLoop inner delim mn vals loc =>
      simp only [refRun] at h
      simp only [run]
      rcases hri : refRun g names opts str n anc (.parse inner loc) err
        with ⟨l1, v1, e1⟩ | m1 | _ | ⟨a, b⟩ <;> rw [hri] at h
      · rw [ih _ _ _ _ _ _ hri s hrl hpk]
        dsimp only
        by_cases hnl : l1 < 0
        · simp only [if_pos hnl] at h ⊢
          by_cases hmin : mn ≤ vals.length
          · simp only [if_pos hmin] at h ⊢
            cases h
            rfl
          · simp only [if_neg hmin] at h ⊢
            cases h
            rfl
        · simp only [if_neg hnl] at h ⊢
          by_cases hz : l1 ≤ (loc : Int)
          · simp only [if_pos hz] at h
            cases h
          · simp only [if_neg hz] at h ⊢
            by_cases hd : 0 < delim.length
            · simp only [if_pos hd] at h ⊢
              by_cases hat : strAt str (skipWS opts str l1.toNat) delim
              · simp only [if_pos hat] at h ⊢
                exact ih _ _ _ _ _ _ h s hrl hpk
              · simp only [if_neg hat] at h ⊢
                cases h
                rfl
            · simp only [if_neg hd] at h ⊢
              exact ih _ _ _ _ _ _ h s hrl hpk
      · cases h
      · cases h
      · cases h
    | lrLoop id loc =>
      simp only [refRun] at h
      cases h

/-- With packrat enabled, the engine reaches the same final offset as the
reference run (values and errors may be re-read from the cache and are
not preserved), for hook-free grammars, provided the reference run
completes without a left-recursive re-entry.  The cache invariant `StON`
is maintained. -/
theorem runOn_sim (g : List PNode) (names : Nat → String) (lrMap : Nat → Int)
    (opts : POptions) (str : ByteStr) (hfree : hookFree g)
    (hon : opts.packratEnabled = true) :
    ∀ fuel anc c err l v e,
      refRun g names opts str fuel anc c err = .ok l v e →
      ∀ c2 err2 s, CallSim c c2 → callHookFree c →
        StON g names opts str s anc →
        ∃ v2 e2 s2, run g names lrMap opts str fuel c2 err2 s = .ok l v2 e2 s2 ∧
          StON g names opts str s2 anc := by
  intro fuel
  induction fuel with
  | zero =>
    intro anc c err l v e h
    simp [refRun] at h
  | succ n ih =>
    intro anc c err l v e h c2 err2 s hsim hhf hst
    cases c with
    | parse id loc0 =>
      rw [CallSim_parse hsim]
      simp only [refRun] at h
      simp only [run]
      have hpf : ¬ (¬ opts.packratEnabled = true ∧ 0 < lrMap id) :=
        fun hc => hc.1 hon
      simp only [if_neg hpf]
      by_cases hin : (id, skipWS opts str loc0) ∈ anc
      · rw [if_pos hin] at h
        cases h
      · rw [if_neg hin] at h
        rcases hlk : pkLookup s.packrat (id, skipWS opts str loc0) with _ | cache
        · -- miss: probe, recurse, complete
          dsimp only
          have hst1 : StON g names opts str
              ⟨pkSet s.packrat (id, skipWS opts str loc0)
                ⟨false, 0, ((skipWS opts str loc0 : Nat) : Int), none, "", 0⟩,
               s.recursiveLocations⟩ ((id, skipWS opts str loc0) :: anc) := by
            refine ⟨hst.1, fun k w hw => ?_⟩
            dsimp only at hw
            rw [pkLookup_pkSet] at hw
            by_cases hk : k = (id, skipWS opts str loc0)
            · rw [if_pos hk] at hw
              cases hw
              refine ⟨rfl, fun hp => ?_, fun _ => ?_⟩
              · simp at hp
              · rw [hk]
                exact List.mem_cons_self _ _
            · rw [if_neg hk] at hw
              obtain ⟨h1, h2, h3⟩ := hst.2 k w hw
              exact ⟨h1, h2, fun hp => List.mem_cons_of_mem _ (h3 hp)⟩
          obtain ⟨v2', e2', s3, hrun3, hst3⟩ :=
            ih _ _ _ _ _ _ h (.node id (skipWS opts str loc0)) err2
              ⟨pkSet s.packrat (id, skipWS opts str loc0)
                ⟨false, 0, ((skipWS opts str loc0 : Nat) : Int), none, "", 0⟩,
               s.recursiveLocations⟩
              (CallSim_refl _) trivial hst1
          rw [hrun3]
          dsimp only
          have hcnt : ¬ s3.recursiveLocations.contains (skipWS opts str loc0) = true := by
            simp [hst3.1]
          have hpne : ¬ ¬ (opts.packratEnabled = true) := fun hc => hc hon
          have hsound : Sound g names opts str (id, skipWS opts str loc0)
              ⟨true, 0, l, none, "", 0⟩ := by
            obtain ⟨vA, eA, hA⟩ := refRun_transfer g names opts str hfree n _ _ _
              _ _ _ h n [] (.node id (skipWS opts str loc0)) err2 (le_refl n)
              (by intro x hx; cases hx) (CallSim_refl _) trivial
            exact ⟨n, err2, vA, eA, hA⟩
          rcases hlk2 : pkLookup s3.packrat (id, skipWS opts str loc0) with _ | cache2
          · simp only [Option.getD_none]
            rw [if_pos (show dfltPV.recursionLevel = 0 from rfl)]
            simp only [if_pos hcnt, if_neg hpne]
            refine ⟨_, _, _, rfl, ?_⟩
            refine ⟨hst3.1, fun k w hw => ?_⟩
            dsimp only at hw
            rw [pkLookup_pkSet] at hw
            by_cases hk : k = (id, skipWS opts str loc0)
            · rw [if_pos hk] at hw
              cases hw
              refine ⟨rfl, fun _ => ?_, fun hp => by simp at hp⟩
              subst hk
              obtain ⟨f0, err0, v0, e0, h0⟩ := hsound
              exact ⟨f0, err0, v0, e0, h0⟩
            · rw [if_neg hk] at hw
              obtain ⟨h1, h2, h3⟩ := hst3.2 k w hw
              refine ⟨h1, h2, fun hp => ?_⟩
              rcases List.mem_cons.mp (h3 hp) with heq | hmem
              · exact absurd heq hk
              · exact hmem
          · simp only [Option.getD_some]
            have hrz : cache2.recursionLevel = 0 := (hst3.2 _ _ hlk2).1
            rw [if_pos hrz]
            simp only [if_pos hcnt, if_neg hpne]
            refine ⟨_, _, _, rfl, ?_⟩
            refine ⟨hst3.1, fun k w hw => ?_⟩
            dsimp only at hw
            rw [pkLookup_pkSet] at hw
            by_cases hk : k = (id, skipWS opts str loc0)
            · rw [if_pos hk] at hw
              cases hw
              refine ⟨hrz, fun _ => ?_, fun hp => by simp at hp⟩
              subst hk
              obtain ⟨f0, err0, v0, e0, h0⟩ := hsound
              exact ⟨f0, err0, v0, e0, h0⟩
            · rw [if_neg hk] at hw
              obtain ⟨h1, h2, h3⟩ := hst3.2 k w hw
              refine ⟨h1, h2, fun hp => ?_⟩
              rcases List.mem_cons.mp (h3 hp) with heq | hmem
              · exact absurd heq hk
              · exact hmem
        · -- hit: entry must be completed and sound
          obtain ⟨hrz, hps, hpf2⟩ := hst.2 _ _ hlk
          cases hpb : cache.parsed with
          | false => exact absurd (hpf2 hpb) hin
          | true =>
            have hsound := hps hpb
            obtain ⟨f0, err0, v0, e0, h0⟩ := hsound
            obtain ⟨vA, eA, hA⟩ := refRun_transfer g names opts str hfree n _ _ _
              _ _ _ h (n + f0) [] (.node id (skipWS opts str loc0)) err0
              (by omega) (by intro x hx; cases hx) (CallSim_refl _) trivial
            obtain ⟨vB, eB, hB⟩ := refRun_transfer g names opts str hfree f0 _ _ _
              _ _ _ h0 (n + f0) [] (.node id (skipWS opts str loc0)) err0
              (by omega) (by intro x hx; cases hx) (CallSim_refl _) trivial
            rw [hA] at hB
            have heq : l = cache.newLoc := by injection hB
            subst heq
            dsimp only
            rw [hpb]
            simp only [if_pos rfl]
            by_cases hnn : 0 ≤ cache.newLoc
            · simp only [if_pos hnn]
              exact ⟨_, _, _, rfl, hst⟩
            · simp only [if_neg hnn]
              exact ⟨_, _, _, rfl, hst⟩
    | node id loc =>
      rw [CallSim_node hsim]
      rcases hn : nodeAt g id with lit | _ | bits | bits | _ | _ | fields |
        fields | ⟨inner, delim, mn⟩ | ⟨inner, opt⟩
      · simp only [refRun, hn] at h
        simp only [run, hn]
        by_cases hc : strAt str loc lit
        · simp only [if_pos hc] at h ⊢
          cases h
          exact ⟨_, _, _, rfl, hst⟩
        · simp only [if_neg hc] at h ⊢
          cases h
          exact ⟨_, _, _, rfl, hst⟩
      · simp only [refRun, hn] at h
        simp only [run, hn]
        by_cases h1 : strAt str loc (bytes "true")
        · simp only [if_pos h1] at h ⊢
          by_cases h2 : loc + 4 < str.length ∧ identChar (str.getD (loc + 4) 0)
          · simp only [if_pos h2] at h ⊢
            cases h
            exact ⟨_, _, _, rfl, hst⟩
          · simp only [if_neg h2] at h ⊢
            cases h
            exact ⟨_, _, _, rfl, hst⟩
        · simp only [if_neg h1] at h ⊢
          by_cases h3 : strAt str loc (bytes "false")
          · simp only [if_pos h3] at h ⊢
            by_cases h4 : loc + 5 < str.length ∧ identChar (str.getD (loc + 5) 0)
            · simp only [if_pos h4] at h ⊢
              cases h
              exact ⟨_, _, _, rfl, hst⟩
            · simp only [if_neg h4] at h ⊢
              cases h
              exact ⟨_, _, _, rfl, hst⟩
          · simp only [if_neg h3] at h ⊢
            cases h
            exact ⟨_, _, _, rfl, hst⟩
      · rcases hu1 : parseUnicodeValue str (loc + 1) err with ⟨r1, l1, ee1⟩
        rcases hu2 : parseUnicodeValue str (loc + 1) err2 with ⟨r2, l2, ee2⟩
        have hue := parseUnicodeValue_err str (loc + 1) err err2
        rw [hu1, hu2] at hue
        dsimp only at hue
        obtain ⟨hr, hl⟩ := hue
        subst hr
        subst hl
        rcases hi1 : parseInt64 str loc bits err with ⟨q1, k1, ef1⟩
        rcases hi2 : parseInt64 str loc bits err2 with ⟨q2, k2, ef2⟩
        have hie := parseInt64_err str loc bits err err2
        rw [hi1, hi2] at hie
        dsimp only at hie
        obtain ⟨hq, hk⟩ := hie
        subst hq
        subst hk
        simp only [refRun, hn, hu1, hi1] at h
        simp only [run, hn, hu2, hi2]
        by_cases hg : bits = 32 ∧ loc < str.length ∧ str.getD loc 0 = 39
        · simp only [if_pos hg] at h ⊢
          by_cases hl1 : l1 < 0
          · simp only [if_pos hl1] at h ⊢
            cases h
            exact ⟨_, _, _, rfl, hst⟩
          · simp only [if_neg hl1] at h ⊢
            by_cases hcq : str.length ≤ l1.toNat ∨ str.getD l1.toNat 0 ≠ 39
            · simp only [if_pos hcq] at h ⊢
              cases h
              exact ⟨_, _, _, rfl, hst⟩
            · simp only [if_neg hcq] at h ⊢
              cases h
              exact ⟨_, _, _, rfl, hst⟩
        · simp only [if_neg hg] at h ⊢
          by_cases hk1 : k1 < 0
          · simp only [if_pos hk1] at h ⊢
            cases h
            exact ⟨_, _, _, rfl, hst⟩
          · simp only [if_neg hk1] at h ⊢
            cases h
            exact ⟨_, _, _, rfl, hst⟩
      · rcases hi1 : parseUint64 str loc bits err with ⟨q1, k1, ef1⟩
        rcases hi2 : parseUint64 str loc bits err2 with ⟨q2, k2, ef2⟩
        have hie := parseUint64_err str loc bits err err2
        rw [hi1, hi2] at hie
        dsimp only at hie
        obtain ⟨hq, hk⟩ := hie
        subst hq
        subst hk
        simp only [refRun, hn, hi1] at h
        simp only [run, hn, hi2]
        by_cases hk1 : k1 < 0
        · simp only [if_pos hk1] at h ⊢
          cases h
          exact ⟨_, _, _, rfl, hst⟩
        · simp only [if_neg hk1] at h ⊢
          cases h
          exact ⟨_, _, _, rfl, hst⟩
      · rcases hi1 : parseString str loc err with ⟨q1, k1, ef1⟩
        rcases hi2 : parseString str loc err2 with ⟨q2, k2, ef2⟩
        have hie := parseString_err str loc err err2
        rw [hi1, hi2] at hie
        dsimp only at hie
        obtain ⟨hq, hk⟩ := hie
        subst hq
        subst hk
        simp only [refRun, hn, hi1] at h
        simp only [run, hn, hi2]
        by_cases hk1 : k1 < 0
        · simp only [if_pos hk1] at h ⊢
          cases h
          exact ⟨_, _, _, rfl, hst⟩
        · simp only [if_neg hk1] at h ⊢
          cases h
          exact ⟨_, _, _, rfl, hst⟩
      · simp only [refRun, hn] at h
        simp only [run, hn]
        cases h
        exact ⟨_, _, _, rfl, hst⟩
      · simp only [refRun, hn] at h
        simp only [run, hn]
        exact ih _ _ _ _ _ _ h _ err2 s (by simp [CallSim])
          (hookFree_seq hfree hn) hst
      · simp only [refRun, hn] at h
        simp only [run, hn]
        exact ih _ _ _ _ _ _ h _ err2 s (by simp [CallSim])
          (hookFree_firstOf hfree hn) hst
      · simp only [refRun, hn] at h
        simp only [run, hn]
        exact ih _ _ _ _ _ _ h _ err2 s (by simp [CallSim]) trivial hst
      · simp only [refRun, hn] at h
        simp only [run, hn]
        rcases hri : refRun g names opts str n anc (.parse inner loc) err
          with ⟨l1, v1, e1⟩ | m1 | _ | ⟨a, b⟩ <;> rw [hri] at h
        · obtain ⟨v2', e2', s3, hrun3, hst3⟩ :=
            ih _ _ _ _ _ _ hri (.parse inner loc) err2 s (CallSim_refl _)
              trivial hst
          rw [hrun3]
          dsimp only
          by_cases hl1 : l1 < 0
          · simp only [if_pos hl1] at h ⊢
            by_cases hopt : opt = true
            · simp only [if_pos hopt] at h ⊢
              cases h
              exact ⟨_, _, _, rfl, hst3⟩
            · simp only [if_neg hopt] at h ⊢
              cases h
              exact ⟨_, _, _, rfl, hst3⟩
          · simp only [if_neg hl1] at h ⊢
            cases h
            exact ⟨_, _, _, rfl, hst3⟩
        · cases h
        · cases h
        · cases h
    | fieldStep f loc =>
      rw [CallSim_fieldStep hsim]
      have hno : f.setHook = none := hhf
      simp only [refRun] at h
      simp only [run]
      rcases hri : refRun g names opts str n anc (.parse f.parse loc) err
        with ⟨l1, v1, e1⟩ | m1 | _ | ⟨a, b⟩ <;> rw [hri] at h
      · obtain ⟨v2', e2', s3, hrun3, hst3⟩ :=
          ih _ _ _ _ _ _ hri (.parse f.parse loc) err2 s (CallSim_refl _)
            trivial hst
        rw [hrun3]
        dsimp only
        by_cases hna : f.flags &&& fieldNotAny ≠ 0
        · simp only [if_pos hna] at h ⊢
          by_cases h0 : 0 ≤ l1
          · simp only [if_pos h0] at h ⊢
            cases h
            exact ⟨_, _, _, rfl, hst3⟩
          · simp only [if_neg h0] at h ⊢
            cases h
            exact ⟨_, _, _, rfl, hst3⟩
        · simp only [if_neg hna] at h ⊢
          by_cases hfb : f.flags &&& fieldFollowedBy ≠ 0
          · simp only [if_pos hfb] at h ⊢
            by_cases hl1 : l1 < 0
            · simp only [if_pos hl1] at h ⊢
              cases h
              exact ⟨_, _, _, rfl, hst3⟩
            · simp only [if_neg hl1] at h ⊢
              cases h
              exact ⟨_, _, _, rfl, hst3⟩
          · simp only [if_neg hfb] at h ⊢
            by_cases hl1 : l1 < 0
            · simp only [if_pos hl1] at h ⊢
              cases h
              exact ⟨_, _, _, rfl, hst3⟩
            · simp only [if_neg hl1, hno] at h ⊢
              cases h
              exact ⟨_, _, _, rfl, hst3⟩
      · cases h
      · cases h
      · cases h
    | fieldsSeq fields idx cur loc =>
      obtain ⟨cur2, rfl⟩ := CallSim_fieldsSeq hsim
      rcases fields with _ | ⟨f, rest⟩
      · simp only [refRun] at h
        simp only [run]
        cases h
        exact ⟨_, _, _, rfl, hst⟩
      · simp only [refRun] at h
        simp only [run]
        rcases hri : refRun g names opts str n anc (.fieldStep f loc) err
          with ⟨l1, v1, e1⟩ | m1 | _ | ⟨a, b⟩ <;> rw [hri] at h
        · obtain ⟨v2', e2', s3, hrun3, hst3⟩ :=
            ih _ _ _ _ _ _ hri (.fieldStep f loc) err2 s (CallSim_refl _)
              (hhf f (List.mem_cons_self _ _)) hst
          rw [hrun3]
          dsimp only
          by_cases hl1 : l1 < 0
          · simp only [if_pos hl1] at h ⊢
            cases h
            exact ⟨_, _, _, rfl, hst3⟩
          · simp only [if_neg hl1] at h ⊢
            exact ih _ _ _ _ _ _ h _ e2' s3 (by simp [CallSim])
              (fun f2 hf2 => hhf f2 (List.mem_cons_of_mem _ hf2)) hst3
        · cases h
        · cases h
        · cases h
    | fieldsFirst fields idx cur maxErr loc =>
      obtain ⟨cur2, maxErr2, rfl⟩ := CallSim_fieldsFirst hsim
      rcases fields with _ | ⟨f, rest⟩
      · simp only [refRun] at h
        simp only [run]
        cases h
        exact ⟨_, _, _, rfl, hst⟩
      · simp only [refRun] at h
        simp only [run]
        rcases hri : refRun g names opts str n anc (.fieldStep f loc) err
          with ⟨l1, v1, e1⟩ | m1 | _ | ⟨a, b⟩ <;> rw [hri] at h
        · obtain ⟨v2', e2', s3, hrun3, hst3⟩ :=
            ih _ _ _ _ _ _ hri (.fieldStep f loc) err2 s (CallSim_refl _)
              (hhf f (List.mem_cons_self _ _)) hst
          rw [hrun3]
          dsimp only
          by_cases hl1 : 0 ≤ l1
          · simp only [if_pos hl1] at h ⊢
            cases h
            exact ⟨_, _, _, rfl, hst3⟩
          · simp only [if_neg hl1] at h ⊢
            exact ih _ _ _ _ _ _ h _ e2' s3 (by simp [CallSim])
              (fun f2 hf2 => hhf f2 (List.mem_cons_of_mem _ hf2)) hst3
        · cases h
        · cases h
        · cases h
    | sliceLoop inner delim mn vals loc =>
      obtain ⟨vals2, hlen, rfl⟩ := CallSim_sliceLoop hsim
      simp only [refRun] at h
      simp only [run]
      rcases hri : refRun g names opts str n anc (.parse inner loc) err
        with ⟨l1, v1, e1⟩ | m1 | _ | ⟨a, b⟩ <;> rw [hri] at h
      · obtain ⟨v2', e2', s3, hrun3, hst3⟩ :=
          ih _ _ _ _ _ _ hri (.parse inner loc) err2 s (CallSim_refl _)
            trivial hst
        rw [hrun3]
        dsimp only
        by_cases hnl : l1 < 0
        · simp only [if_pos hnl] at h ⊢
          by_cases hmin : mn ≤ vals.length
          · have hmin2 : mn ≤ vals2.length := hlen ▸ hmin
            simp only [if_pos hmin] at h
            simp only [if_pos hmin2]
            cases h
            exact ⟨_, _, _, rfl, hst3⟩
          · have hmin2 : ¬ mn ≤ vals2.length := hlen ▸ hmin
            simp only [if_neg hmin] at h
            simp only [if_neg hmin2]
            cases h
            exact ⟨_, _, _, rfl, hst3⟩
        · simp only [if_neg hnl] at h ⊢
          by_cases hz : l1 ≤ (loc : Int)
          · simp only [if_pos hz] at h
            cases h
          · simp only [if_neg hz] at h ⊢
            by_cases hd : 0 < delim.length
            · simp only [if_pos hd] at h ⊢
              by_cases hat : strAt str (skipWS opts str l1.toNat) delim
              · simp only [if_pos hat] at h ⊢
                exact ih _ _ _ _ _ _ h _ e2' s3 (by simp [CallSim, hlen])
                  trivial hst3
              · simp only [if_neg hat] at h ⊢
                cases h
                exact ⟨_, _, _, rfl, hst3⟩
            · simp only [if_neg hd] at h ⊢
              exact ih _ _ _ _ _ _ h _ e2' s3 (by simp [CallSim, hlen])
                trivial hst3
      · cases h
      · cases h
      · cases h
    | lrLoop id loc =>
      simp only [refRun] at h
      cases h

/-- C4 (amended): for a hook-free grammar and an input on which the
reference engine (explicit left-recursion detection, no cache) succeeds —
i.e. the grammar is not left-recursive on this input — parsing with
packrat disabled returns exactly the reference outcome (same offset,
value and error, with the empty state restored), and parsing with packrat
enabled returns the same final offset.  The parsed values need not be
byte-identical across the two modes (see the counterexample): a cached
failure replays no partial value, while recomputation does. -/
theorem packrat_preserves_offsets (g : List PNode) (names : Nat → String)
    (lrMap : Nat → Int) (sw : Option (ByteStr → Nat → Nat)) (str : ByteStr)
    (hfree : hookFree g) (fuel id loc : Nat) (err : PError)
    (l : Int) (v : GoVal) (e : PError)
    (href : refRun g names ⟨sw, false⟩ str fuel [] (.parse id loc) err =
      .ok l v e) :
    run g names lrMap ⟨sw, false⟩ str fuel (.parse id loc) err ⟨[], []⟩ =
      .ok l v e ⟨[], []⟩ ∧
    ∃ v2 e2 s2,
      run g names lrMap ⟨sw, true⟩ str fuel (.parse id loc) err ⟨[], []⟩ =
        .ok l v2 e2 s2 := by
  constructor
  · exact runOff_sim g names lrMap ⟨sw, false⟩ str rfl fuel [] _ err l v e href
      ⟨[], []⟩ rfl (fun k w hw => by simp [pkLookup, List.find?] at hw)
  · have href2 : refRun g names ⟨sw, true⟩ str fuel [] (.parse id loc) err =
        .ok l v e := by
      rw [refRun_optsFlag g names sw true false str fuel [] _ err]
      exact href
    obtain ⟨v2, e2, s2, hrun, _⟩ :=
      runOn_sim g names lrMap ⟨sw, true⟩ str hfree rfl fuel [] _ err l v e href2
        (.parse id loc) err ⟨[], []⟩ (CallSim_refl _) trivial
        ⟨rfl, fun k w hw => by simp [pkLookup, List.find?] at hw⟩
    exact ⟨v2, e2, s2, hrun⟩

/-- C4 counterexample to the original claim: a non-left-recursive,
hook-free grammar and input on which packrat-on and packrat-off produce
the same offset and error but different parsed values.  The boolean node
at offset 0 writes `true` into its slot before failing the
identifier-boundary check; with packrat off, the `NotAny` re-parse leaves
that partial value in the chosen branch, while with packrat on the cached
failure replays the zero value. -/
theorem packrat_value_divergence :
    (run [PNode.boolean,
          .seq [⟨"B", false, 0, 0, none⟩],
          .lit (bytes "truex"),
          .seq [⟨"B", false, 1, 0, none⟩, ⟨"L", false, 0, 2, none⟩],
          .firstOf [⟨"Br1", false, 0, 1, none⟩, ⟨"Br2", false, 0, 3, none⟩]]
        (fun _ => "p") (fun _ => 0) ⟨none, false⟩ (bytes "truex") 12
        (.parse 4 0) ⟨0, ""⟩ ⟨[], []⟩ =
      .ok 5 (.vstruct "Br2" [.vstruct "" [.vbool true],
          .vstruct "" [.vbool true, .vstr (bytes "truex")]])
        ⟨4, "Waiting for boolean value"⟩ ⟨[], []⟩) ∧
    (∃ s2, run [PNode.boolean,
          .seq [⟨"B", false, 0, 0, none⟩],
          .lit (bytes "truex"),
          .seq [⟨"B", false, 1, 0, none⟩, ⟨"L", false, 0, 2, none⟩],
          .firstOf [⟨"Br1", false, 0, 1, none⟩, ⟨"Br2", false, 0, 3, none⟩]]
        (fun _ => "p") (fun _ => 0) ⟨none, true⟩ (bytes "truex") 12
        (.parse 4 0) ⟨0, ""⟩ ⟨[], []⟩ =
      .ok 5 (.vstruct "Br2" [.vstruct "" [.vbool true],
          .vstruct "" [.vbool false, .vstr (bytes "truex")]])
        ⟨4, "Waiting for boolean value"⟩ s2) ∧
    (GoVal.vstruct "Br2" [.vstruct "" [.vbool true],
        .vstruct "" [.vbool true, .vstr (bytes "truex")]] ≠
      .vstruct "Br2" [.vstruct "" [.vbool true],
        .vstruct "" [.vbool false, .vstr (bytes "truex")]]) ∧
    (refRun [PNode.boolean,
          .seq [⟨"B", false, 0, 0, none⟩],
          .lit (bytes "truex"),
          .seq [⟨"B", false, 1, 0, none⟩, ⟨"L", false, 0, 2, none⟩],
          .firstOf [⟨"Br1", false, 0, 1, none⟩, ⟨"Br2", false, 0, 3, none⟩]]
        (fun _ => "p") ⟨none, false⟩ (bytes "truex") 12 [] (.parse 4 0) ⟨0, ""⟩ =
      .ok 5 (.vstruct "Br2" [.vstruct "" [.vbool true],
          .vstruct "" [.vbool true, .vstr (bytes "truex")]])
        ⟨4, "Waiting for boolean value"⟩) := by
  refine ⟨rfl, ⟨_, rfl⟩, ?_, rfl⟩
  simp

/-- Concrete instance of the amended packrat-invariance theorem on the
grammar [lit "ab"] and input "ab". -/
theorem packrat_preserves_offsets_witness :
    (run [PNode.lit (bytes "ab")] (fun _ => "p") (fun _ => 0) ⟨none, false⟩
        (bytes "ab") 3 (.parse 0 0) ⟨0, ""⟩ ⟨[], []⟩ =
      .ok 2 (.vstr (bytes "ab")) ⟨0, ""⟩ ⟨[], []⟩) ∧
    (∃ v2 e2 s2,
      run [PNode.lit (bytes "ab")] (fun _ => "p") (fun _ => 0) ⟨none, true⟩
          (bytes "ab") 3 (.parse 0 0) ⟨0, ""⟩ ⟨[], []⟩ =
        .ok 2 v2 e2 s2) := by
  have h := packrat_preserves_offsets [PNode.lit (bytes "ab")] (fun _ => "p")
    (fun _ => 0) none (bytes "ab")
    (by intro nn hn
        simp only [List.mem_singleton] at hn
        subst hn
        trivial)
    3 0 0 ⟨0, ""⟩ 2 (.vstr (bytes "ab")) ⟨0, ""⟩ rfl
  exact ⟨h.1, h.2⟩
